import Mathlib

/-!
Verification of the forced-choice trial generator
(src/forced_choice_trial_generator.py) against its specification.

The Python code is shallowly embedded below.  Randomness (numpy's
process-wide RNG) is represented by oracle functions passed explicitly:
each call site of `np.random.permutation` consults its own oracle, and
theorems that hold "regardless of the random draws" quantify over all
oracles that return permutations of their input.  Numbers in the input
table are nonnegative integers (the lure-bin files hold integer ids and
integer bin labels), so identifiers and bins are modelled as `Nat`.
Fallible numpy operations (reshape / column_stack with mismatched
shapes, indexing past the number of rows) are modelled with `Option`.
-/

set_option maxRecDepth 40000

namespace MST

/-! ## Decimal rendering of identifiers

The source converts numpy values with `.astype('int').astype('str')`,
i.e. renders each identifier in decimal.  `natDigits` computes the
decimal digits (least significant first) with structural fuel so that
everything evaluates by `decide`/`rfl`. -/

def natDigitsAux : Nat → Nat → List Nat
  | 0, _ => []
  | _ + 1, 0 => []
  | fuel + 1, n + 1 => ((n + 1) % 10) :: natDigitsAux fuel ((n + 1) / 10)

/-- Decimal digits of `n`, least significant first; `[]` for `0`. -/
def natDigits (n : Nat) : List Nat := natDigitsAux n n

def digitChar (d : Nat) : Char := Char.ofNat (48 + d)

/-- Decimal string of a natural number, as produced by `astype('str')`. -/
def natRepr (n : Nat) : String :=
  if n = 0 then "0" else String.mk (((natDigits n).reverse).map digitChar)

/-- Python's `str.zfill`, for strings of digits (no sign handling needed
for nonnegative identifiers): left-pad with zeros up to `width`; strings
already at least `width` long are returned unchanged. -/
def zfill (width : Nat) (s : String) : String :=
  if width ≤ s.length then s
  else String.mk (List.replicate (width - s.length) '0') ++ s

/-- Embedding of `make_three_digits(x, digits=3)`: the source calls
`np.char.zfill(x.astype('int').astype('str'), 3)` — note the literal
width `3`; the `digits` parameter is accepted but never used. -/
def make_three_digits (x : List Nat) (digits : Nat) : List String :=
  x.map (fun n => zfill 3 (natRepr n))

/-! ## BinLoader + Stratifier (`generate_matched_bins_imgs`) -/

/-- Embedding of `np.unique(bins)`: the distinct values, ascending. -/
def uniqueSorted (l : List Nat) : List Nat :=
  List.insertionSort (· ≤ ·) l.dedup

/-- The distinct bin labels of the table (second column), ascending. -/
def binsU (table : List (Nat × Nat)) : List Nat :=
  uniqueSorted (table.map Prod.snd)

/-- Embedding of `imgs_per_bin = int(img_per_cond / len(bins_unique))`. -/
def ipbOf (table : List (Nat × Nat)) (img_per_cond : Nat) : Nat :=
  img_per_cond / (binsU table).length

/-- Embedding of `imgs[bins == bin_j]`: identifiers of the rows carrying bin `b`,
in table order. -/
def binImgs (table : List (Nat × Nat)) (b : Nat) : List Nat :=
  (table.filter (fun p => p.2 == b)).map Prod.fst

/-- Embedding of `np.random.permutation(imgs[bins == bin_j])[:img_per_cond]`:
the oracle `rand` stands for the RNG draw for bin `b`. -/
def binShuffled (table : List (Nat × Nat)) (img_per_cond : Nat)
    (rand : Nat → List Nat → List Nat) (b : Nat) : List Nat :=
  (rand b (binImgs table b)).take img_per_cond

/-- Embedding of `ndarray.reshape((rows, cols))`, row-major; fails (numpy
`ValueError`) unless the length is exactly `rows * cols`. -/
def reshapeRows (rows cols : Nat) (l : List α) : Option (List (List α)) :=
  if l.length = rows * cols then
    some ((List.range rows).map fun r => (l.drop (r * cols)).take cols)
  else none

/-- Sequence a list of optional results, failing on the first `none`
(the Python loop aborts on the first reshape error). -/
def optList : List (Option α) → Option (List α)
  | [] => some []
  | none :: _ => none
  | some a :: rest =>
    match optList rest with
    | none => none
    | some as => some (a :: as)

/-- Embedding of `generate_matched_bins_imgs`, with the file already loaded into
`table` (id, bin) and the per-bin RNG draw supplied by `rand`.
The source zero-initialises a `num_cond × img_per_cond` array and writes
each bin's reshaped block into its contiguous column range
`[c_i * imgs_per_bin, (c_i+1) * imgs_per_bin)`; row `r` of the result is
therefore the concatenation of row `r` of every block (bins in ascending
order) followed by the never-written zero-initialised columns.
`lure_bins = np.repeat(bins_unique, imgs_per_bin)`.  An empty table
fails (`ZeroDivisionError` on `len(bins_unique)`). -/
def stratify (table : List (Nat × Nat)) (num_cond img_per_cond : Nat)
    (rand : Nat → List Nat → List Nat) :
    Option (List (List Nat) × List Nat) :=
  if (binsU table).isEmpty then none
  else
    match optList ((binsU table).map fun b =>
        reshapeRows num_cond (ipbOf table img_per_cond)
          (binShuffled table img_per_cond rand b)) with
    | none => none
    | some blocks =>
      some ((List.range num_cond).map fun r =>
              (blocks.map fun blk => blk.getD r []).flatten ++
                List.replicate
                  (img_per_cond - (binsU table).length * ipbOf table img_per_cond) 0,
            ((binsU table).map fun b =>
              List.replicate (ipbOf table img_per_cond) b).flatten)

/-! ## EncodingTrialBuilder (`generate_enc_trials`) -/

/-- Embedding of `generate_enc_trials`: flatten rows `0..num_cond-2`
(`img_cond_arr[:(num_cond - 1), :]`, `num_cond ≥ 1`), shuffle
(`rand` is the RNG draw), format, append `'a.jpg'`. -/
def generate_enc_trials (img_cond_arr : List (List Nat)) (num_cond : Nat)
    (rand : List Nat → List Nat) : List String :=
  (make_three_digits (rand ((img_cond_arr.take (num_cond - 1)).flatten)) 3).map
    (fun s => s ++ "a.jpg")

/-! ## TestTrialBuilder (`generate_test_trials`) -/

/-- One row of the final test-trial array.  In numpy the four columns
are coerced to one string dtype by `np.column_stack`; the embedding
keeps the numeric bin label of column 3 as the `Nat` it renders. -/
structure TestTrial where
  left : String
  right : String
  trialType : String
  lureBin : Nat
deriving DecidableEq

def typeAA : String := "A-A\x27"
def typeBC : String := "B-C\x27"
def typeDX : String := "D-X"

/-- Format column 0 with suffix `a.jpg` (`np.char.add` broadcast). -/
def fmtA (n : Nat) : String := zfill 3 (natRepr n) ++ "a.jpg"

/-- Format column 1 with suffix `b.jpg`. -/
def fmtB (n : Nat) : String := zfill 3 (natRepr n) ++ "b.jpg"

def fmtPair (p : Nat × Nat) : String × String := (fmtA p.1, fmtB p.2)

/-- Embedding of `np.row_stack((a_aprime, b_cprime, d_x))` of the three column-pair
tables built from rows 0,1,2,3,4. -/
def testPairsRaw (r0 r1 r2 r3 r4 : List Nat) : List (Nat × Nat) :=
  r0.zip r0 ++ r1.zip r2 ++ r3.zip r4

/-- Embedding of `map(np.random.permutation, trials)`: each 2-element row is kept or
swapped; `swapF i` is the RNG draw for row `i`. -/
def swapPairs (swapF : Nat → Bool) : Nat → List (String × String) → List (String × String)
  | _, [] => []
  | i, p :: ps => (if swapF i then (p.2, p.1) else p) :: swapPairs swapF (i + 1) ps

/-- Embedding of `np.column_stack((trials, trial_type, lure_bins))`, zipping the
three equally long columns into rows. -/
def mkTrials : List (String × String) → List String → List Nat → List TestTrial
  | p :: ps, t :: ts, b :: bs => ⟨p.1, p.2, t, b⟩ :: mkTrials ps ts bs
  | _, _, _ => []

/-- Embedding of `generate_test_trials`.  Fails (numpy errors) when the grid has
fewer than five rows (`img_cond_arr[4, :]` raises `IndexError`), when
`column_stack((row1, row2))` or `((row3, row4))` sees unequal lengths,
or when the final `column_stack` sees row counts differing from
`3 * img_per_cond` (the length of `trial_type`).  `randRows` is the RNG
draw for the final `np.random.permutation` over whole rows. -/
def generate_test_trials (img_cond_arr : List (List Nat)) (bins : List Nat)
    (img_per_cond : Nat) (swapF : Nat → Bool)
    (randRows : List TestTrial → List TestTrial) : Option (List TestTrial) :=
  match img_cond_arr with
  | r0 :: r1 :: r2 :: r3 :: r4 :: _ =>
    if r1.length = r2.length ∧ r3.length = r4.length then
      if (swapPairs swapF 0 ((testPairsRaw r0 r1 r2 r3 r4).map fmtPair)).length
            = 3 * img_per_cond
          ∧ (bins ++ bins ++ bins).length = 3 * img_per_cond then
        some (randRows (mkTrials
          (swapPairs swapF 0 ((testPairsRaw r0 r1 r2 r3 r4).map fmtPair))
          (List.replicate img_per_cond typeAA ++
            List.replicate img_per_cond typeBC ++
            List.replicate img_per_cond typeDX)
          (bins ++ bins ++ bins)))
      else none
    else none
  | _ => none

/-! ## Orchestrator (`generate_trials`) -/

def generate_trials (table : List (Nat × Nat)) (num_cond img_per_cond : Nat)
    (randB : Nat → List Nat → List Nat) (randE : List Nat → List Nat)
    (swapF : Nat → Bool) (randT : List TestTrial → List TestTrial) :
    Option (List String × List TestTrial) :=
  match stratify table num_cond img_per_cond randB with
  | none => none
  | some (imgs, bins) =>
    match generate_test_trials imgs bins img_per_cond swapF randT with
    | none => none
    | some test => some (generate_enc_trials imgs num_cond randE, test)

/-! ## Randomness validity -/

/-- The per-bin shuffle oracle returns permutations of its input. -/
def validPermB (rand : Nat → List Nat → List Nat) : Prop :=
  ∀ b l, (rand b l).Perm l

/-- The encoding shuffle oracle returns permutations of its input. -/
def validPermE (rand : List Nat → List Nat) : Prop :=
  ∀ l, (rand l).Perm l

/-- The row shuffle oracle returns permutations of its input. -/
def validPermT (rand : List TestTrial → List TestTrial) : Prop :=
  ∀ l, (rand l).Perm l

/-- Identity oracles: the RNG draw that leaves its input in place. -/
def idRandB : Nat → List Nat → List Nat := fun _ l => l
def idRandE : List Nat → List Nat := fun l => l
def noSwap : Nat → Bool := fun _ => false
def idRandT : List TestTrial → List TestTrial := fun l => l

/-! ## Derived notions and concrete inputs used by the verification -/

/-- Value of a little-endian digit list. -/
def natVal : List Nat → Nat
  | [] => 0
  | d :: ds => d + 10 * natVal ds

/-- Predicate: the string `s` ends with the string `t` (on the character lists). -/
def strEnds (s t : String) : Prop := t.data <:+ s.data

/-- Exactly one of the two images of a trial carries suffix `a.jpg` and
the other `b.jpg` (in either left/right order). -/
def exactlyOneSuffix (tr : TestTrial) : Prop :=
  (strEnds tr.left "a.jpg" ∧ strEnds tr.right "b.jpg" ∧
    ¬ strEnds tr.left "b.jpg" ∧ ¬ strEnds tr.right "a.jpg") ∨
  (strEnds tr.left "b.jpg" ∧ strEnds tr.right "a.jpg" ∧
    ¬ strEnds tr.left "a.jpg" ∧ ¬ strEnds tr.right "b.jpg")

/-- The two images of `tr` are the `a`/`b`-formatted variants of the
entries in the same column of rows `ra` and `rb`, in either order. -/
def pairedSameCol (ra rb : List Nat) (tr : TestTrial) : Prop :=
  ∃ i, ∃ ha : i < ra.length, ∃ hb : i < rb.length,
    (tr.left = fmtA (ra.get ⟨i, ha⟩) ∧ tr.right = fmtB (rb.get ⟨i, hb⟩)) ∨
    (tr.left = fmtB (rb.get ⟨i, hb⟩) ∧ tr.right = fmtA (ra.get ⟨i, ha⟩))

/-! ## Seeded random source

Modelled from the spec: the reference code draws every permutation from
numpy's process-wide RNG and exposes no seeding; §5 of the spec requires
implementers to expose a seedable random source so that outputs are
reproducible.  The missing seeding layer is modelled as a linear
congruential PRNG from which every random draw of the pipeline is
derived deterministically. -/

def lcg (s : Nat) : Nat := (1103515245 * s + 12345) % 2147483648

/-- Fisher–Yates-style shuffle driven by the LCG, with structural fuel. -/
def shuffleFuel : Nat → Nat → List α → List α
  | 0, _, l => l
  | _ + 1, _, [] => []
  | fuel + 1, s, a :: l =>
    match (a :: l)[s % (a :: l).length]? with
    | some x => x :: shuffleFuel fuel (lcg s) ((a :: l).eraseIdx (s % (a :: l).length))
    | none => a :: l

def shuffle (s : Nat) (l : List α) : List α := shuffleFuel l.length s l

/-- Modelled from the spec: the full pipeline run from a single seed;
each RNG draw of `generate_trials` is derived from the seed. -/
def generate_trials_seeded (seed : Nat) (table : List (Nat × Nat))
    (num_cond img_per_cond : Nat) : Option (List String × List TestTrial) :=
  generate_trials table num_cond img_per_cond
    (fun b l => shuffle (lcg (seed + b)) l)
    (fun l => shuffle (lcg (lcg seed)) l)
    (fun i => lcg (seed + i) % 2 == 1)
    (fun l => shuffle (lcg (lcg (lcg seed))) l)

/-- A table of 175 images: five bins (1..5), 35 images per bin. -/
def T175 : List (Nat × Nat) := (List.range 175).map (fun i => (i + 1, i / 35 + 1))

/-- A table of 50 images: five bins (1..5), 10 images per bin. -/
def T50 : List (Nat × Nat) := (List.range 50).map (fun i => (i + 1, i / 10 + 1))

/-- A table of 40 images: two bins (1, 2) alternating, 20 images per bin
(the end-to-end scenario of the spec). -/
def T40 : List (Nat × Nat) := (List.range 40).map (fun i => (i + 1, i % 2 + 1))

/-- A table with a duplicated identifier across two bins. -/
def T4 : List (Nat × Nat) := [(1, 1), (5, 1), (7, 2), (1, 2)]

/-- A table with distinct identifiers, two bins of two images. -/
def T4d : List (Nat × Nat) := [(1, 1), (2, 1), (3, 2), (4, 2)]

/-- A table with two bins of three images (non-divisible case). -/
def T6 : List (Nat × Nat) := [(1, 1), (2, 1), (3, 1), (4, 2), (5, 2), (6, 2)]

/-- The stratified grid and bin vector of `T50` under identity draws. -/
def STRAT50 : List (List Nat) × List Nat := (stratify T50 5 10 idRandB).getD ([], [])

def G50 : List (List Nat) := STRAT50.1

def B50 : List Nat := STRAT50.2

/-- The test-trial list of the `T50` run under identity draws. -/
def TT50 : List TestTrial := (generate_test_trials G50 B50 10 noSwap idRandT).getD []

/-! ## Properties of the decimal rendering -/

theorem natDigitsAux_stable : ∀ f1 f2 n : Nat, n ≤ f1 → n ≤ f2 →
    natDigitsAux f1 n = natDigitsAux f2 n := by
  intro f1
  induction f1 with
  | zero =>
    intro f2 n h1 _
    have hn : n = 0 := Nat.le_zero.mp h1
    subst hn
    cases f2 <;> rfl
  | succ f ih =>
    intro f2 n h1 h2
    match n with
    | 0 => cases f2 <;> rfl
    | m + 1 =>
      match f2 with
      | f2' + 1 =>
        show ((m + 1) % 10) :: natDigitsAux f ((m + 1) / 10)
            = ((m + 1) % 10) :: natDigitsAux f2' ((m + 1) / 10)
        have hd : (m + 1) / 10 < m + 1 := Nat.div_lt_self (Nat.succ_pos m) (by decide)
        rw [ih f2' ((m + 1) / 10) (by omega) (by omega)]

theorem natDigits_zero : natDigits 0 = [] := rfl

theorem natDigits_succ (n : Nat) (h : n ≠ 0) :
    natDigits n = n % 10 :: natDigits (n / 10) := by
  match n with
  | m + 1 =>
    show natDigitsAux (m + 1) (m + 1) = _
    have hd : (m + 1) / 10 < m + 1 := Nat.div_lt_self (Nat.succ_pos m) (by decide)
    show ((m + 1) % 10) :: natDigitsAux m ((m + 1) / 10) = _
    rw [natDigitsAux_stable m ((m + 1) / 10) ((m + 1) / 10) (by omega) (Nat.le_refl _)]
    rfl

theorem natVal_natDigits : ∀ n : Nat, natVal (natDigits n) = n := by
  intro n
  induction n using Nat.strong_induction_on with
  | _ n ih =>
    by_cases h : n = 0
    · subst h; rfl
    · rw [natDigits_succ n h]
      show n % 10 + 10 * natVal (natDigits (n / 10)) = n
      rw [ih (n / 10) (Nat.div_lt_self (Nat.pos_of_ne_zero h) (by decide))]
      omega

theorem natDigits_inj {m n : Nat} (h : natDigits m = natDigits n) : m = n := by
  have := natVal_natDigits m
  rw [h, natVal_natDigits] at this
  exact this.symm

theorem natDigits_lt_ten : ∀ n : Nat, ∀ d ∈ natDigits n, d < 10 := by
  intro n
  induction n using Nat.strong_induction_on with
  | _ n ih =>
    intro d hd
    by_cases h : n = 0
    · subst h; simp [natDigits_zero] at hd
    · rw [natDigits_succ n h] at hd
      rcases List.mem_cons.mp hd with h1 | h1
      · subst h1; exact Nat.mod_lt n (by decide)
      · exact ih (n / 10) (Nat.div_lt_self (Nat.pos_of_ne_zero h) (by decide)) d h1

theorem natDigits_ne_nil {n : Nat} (h : n ≠ 0) : natDigits n ≠ [] := by
  rw [natDigits_succ n h]
  exact List.cons_ne_nil _ _

theorem natDigits_getLast?_ne_zero :
    ∀ n : Nat, n ≠ 0 → ∀ d, (natDigits n).getLast? = some d → d ≠ 0 := by
  intro n
  induction n using Nat.strong_induction_on with
  | _ n ih =>
    intro h d hd
    rw [natDigits_succ n h] at hd
    by_cases hq : n / 10 = 0
    · rw [hq, natDigits_zero] at hd
      simp at hd
      have hlt : n < 10 := (Nat.div_eq_zero_iff (by decide)).mp hq
      rw [Nat.mod_eq_of_lt hlt] at hd
      omega
    · have hne := natDigits_ne_nil hq
      match hdig : natDigits (n / 10) with
      | [] => exact absurd hdig hne
      | e :: es =>
        rw [hdig] at hd
        rw [List.getLast?_cons_cons] at hd
        refine ih (n / 10) (Nat.div_lt_self (Nat.pos_of_ne_zero h) (by decide)) hq d ?_
        rw [hdig]
        exact hd

theorem digitChar_toNat {d : Nat} (h : d < 10) : (digitChar d).toNat = 48 + d := by
  interval_cases d <;> decide

theorem digitChar_inj {d1 d2 : Nat} (h1 : d1 < 10) (h2 : d2 < 10)
    (h : digitChar d1 = digitChar d2) : d1 = d2 := by
  have := congrArg Char.toNat h
  rw [digitChar_toNat h1, digitChar_toNat h2] at this
  omega

theorem digitChar_ne_zeroChar {d : Nat} (h : d < 10) (hd : d ≠ 0) :
    digitChar d ≠ '0' := by
  intro hc
  have h0 : digitChar 0 = '0' := by decide
  exact hd (digitChar_inj h (by decide) (hc.trans h0.symm))

theorem map_digitChar_inj : ∀ l1 l2 : List Nat, (∀ d ∈ l1, d < 10) →
    (∀ d ∈ l2, d < 10) → l1.map digitChar = l2.map digitChar → l1 = l2 := by
  intro l1
  induction l1 with
  | nil => intro l2 _ _ h; cases l2 <;> simp_all
  | cons a l ih =>
    intro l2 hb1 hb2 h
    cases l2 with
    | nil => simp at h
    | cons b l2' =>
      simp only [List.map_cons, List.cons.injEq] at h
      have ha : a = b :=
        digitChar_inj (hb1 a (by simp)) (hb2 b (by simp)) h.1
      rw [ha, ih l2' (fun d hd => hb1 d (by simp [hd]))
        (fun d hd => hb2 d (by simp [hd])) h.2]

theorem natRepr_zero : natRepr 0 = "0" := rfl

theorem natRepr_data {n : Nat} (h : n ≠ 0) :
    (natRepr n).data = ((natDigits n).reverse).map digitChar := by
  simp [natRepr, h]

theorem natRepr_length {n : Nat} (h : n ≠ 0) :
    (natRepr n).length = (natDigits n).length := by
  show (natRepr n).data.length = _
  rw [natRepr_data h, List.length_map, List.length_reverse]

theorem natRepr_length_pos (n : Nat) : 1 ≤ (natRepr n).length := by
  by_cases h : n = 0
  · subst h; decide
  · rw [natRepr_length h]
    have := natDigits_ne_nil h
    cases hd : natDigits n with
    | nil => exact absurd hd this
    | cons e es => simp

theorem natRepr_head_ne_zeroChar {n : Nat} (h : n ≠ 0) :
    ∀ c, (natRepr n).data.head? = some c → c ≠ '0' := by
  intro c hc
  rw [natRepr_data h, List.head?_map, List.head?_reverse] at hc
  match hg : (natDigits n).getLast? with
  | none =>
    rw [hg] at hc; simp at hc
  | some d =>
    rw [hg] at hc
    simp only [Option.map_some'] at hc
    have hd10 : d < 10 := by
      have hmem : d ∈ natDigits n := by
        rw [List.getLast?_eq_getElem?] at hg
        rcases List.getElem?_eq_some.mp hg with ⟨hlt, hEq⟩
        exact hEq ▸ List.getElem_mem hlt
      exact natDigits_lt_ten n d hmem
    have hdne := natDigits_getLast?_ne_zero n h d hg
    have : c = digitChar d := by simpa using hc.symm
    rw [this]
    exact digitChar_ne_zeroChar hd10 hdne

theorem natRepr_inj : ∀ m n : Nat, natRepr m = natRepr n → m = n := by
  have key : ∀ m n : Nat, m ≠ 0 → n ≠ 0 → natRepr m = natRepr n → m = n := by
    intro m n hm hn h
    have hd : (natRepr m).data = (natRepr n).data := by rw [h]
    rw [natRepr_data hm, natRepr_data hn] at hd
    have hrev := map_digitChar_inj _ _
      (fun d hmem => natDigits_lt_ten m d (List.mem_reverse.mp hmem))
      (fun d hmem => natDigits_lt_ten n d (List.mem_reverse.mp hmem)) hd
    exact natDigits_inj (List.reverse_injective hrev)
  intro m n h
  by_cases hm : m = 0 <;> by_cases hn : n = 0
  · rw [hm, hn]
  · exfalso
    subst hm
    have h1 := natRepr_head_ne_zeroChar hn
    rw [← h] at h1
    exact h1 '0' rfl rfl
  · exfalso
    subst hn
    have h1 := natRepr_head_ne_zeroChar hm
    rw [h] at h1
    exact h1 '0' rfl rfl
  · exact key m n hm hn h

/-! ## Properties of zero padding and filename formatting -/

theorem zfill_of_le {s : String} (h : 3 ≤ s.length) : zfill 3 s = s := by
  simp [zfill, h]

theorem zfill_data_of_lt {s : String} (h : s.length < 3) :
    (zfill 3 s).data = List.replicate (3 - s.length) '0' ++ s.data := by
  rw [zfill, if_neg (by omega)]
  rw [String.data_append]

theorem zfill_length_of_lt {s : String} (h : s.length < 3) :
    (zfill 3 s).length = 3 := by
  have : (zfill 3 s).length = (zfill 3 s).data.length := rfl
  rw [this, zfill_data_of_lt h, List.length_append, List.length_replicate]
  have hs : s.data.length = s.length := rfl
  omega

theorem natRepr_data_ne_nil (n : Nat) : (natRepr n).data ≠ [] := by
  intro hc
  have h1 := natRepr_length_pos n
  have : (natRepr n).length = (natRepr n).data.length := rfl
  rw [this, hc] at h1
  simp at h1

theorem zfill_natRepr_inj_aux {m n : Nat}
    (hm : (natRepr m).length < 3) (hn : (natRepr n).length < 3)
    (hlt : (natRepr m).length < (natRepr n).length)
    (h : (zfill 3 (natRepr m)).data = (zfill 3 (natRepr n)).data) : False := by
  rw [zfill_data_of_lt hm, zfill_data_of_lt hn] at h
  have hidx := congrArg (fun l => l[3 - (natRepr n).length]?) h
  simp only at hidx
  rw [List.getElem?_append_left (by
        rw [List.length_replicate]; omega)] at hidx
  rw [List.getElem?_replicate, if_pos (by omega)] at hidx
  rw [List.getElem?_append_right (by rw [List.length_replicate])] at hidx
  rw [List.length_replicate, Nat.sub_self] at hidx
  rw [← List.head?_eq_getElem?] at hidx
  have hnz : n ≠ 0 := by
    intro hc
    subst hc
    have h1 : (natRepr 0).length = 1 := rfl
    have h2 := natRepr_length_pos m
    omega
  exact natRepr_head_ne_zeroChar hnz '0' hidx.symm rfl

theorem zfill_natRepr_pad_head {m n : Nat}
    (h3m : 3 ≤ (natRepr m).length) (h3n : (natRepr n).length < 3)
    (hd : (zfill 3 (natRepr m)).data = (zfill 3 (natRepr n)).data) : False := by
  rw [zfill_of_le h3m, zfill_data_of_lt h3n] at hd
  have hmz : m ≠ 0 := by
    intro hc; subst hc
    have : (natRepr 0).length = 1 := rfl
    omega
  have hk : 3 - (natRepr n).length = (3 - (natRepr n).length - 1) + 1 := by
    have := natRepr_length_pos n
    omega
  rw [hk, List.replicate_succ, List.cons_append] at hd
  have hhead := congrArg List.head? hd
  rw [List.head?_cons] at hhead
  exact natRepr_head_ne_zeroChar hmz '0' hhead rfl

theorem zfill_natRepr_inj {m n : Nat}
    (h : zfill 3 (natRepr m) = zfill 3 (natRepr n)) : m = n := by
  have hd : (zfill 3 (natRepr m)).data = (zfill 3 (natRepr n)).data := by rw [h]
  by_cases h3m : 3 ≤ (natRepr m).length <;> by_cases h3n : 3 ≤ (natRepr n).length
  · rw [zfill_of_le h3m, zfill_of_le h3n] at h
    exact natRepr_inj m n h
  · exact absurd hd (by intro hc; exact zfill_natRepr_pad_head h3m (by omega) hc)
  · exact absurd hd.symm (by intro hc; exact zfill_natRepr_pad_head h3n (by omega) hc)
  · rcases Nat.lt_trichotomy (natRepr m).length (natRepr n).length with hlt | heq | hgt
    · exact absurd hd (by intro hc; exact zfill_natRepr_inj_aux (by omega) (by omega) hlt hc)
    · rw [zfill_data_of_lt (by omega), zfill_data_of_lt (by omega), heq] at hd
      have := List.append_cancel_left hd
      exact natRepr_inj m n (String.ext this)
    · exact absurd hd.symm
        (by intro hc; exact zfill_natRepr_inj_aux (by omega) (by omega) hgt hc)

theorem fmtA_inj {m n : Nat} (h : fmtA m = fmtA n) : m = n := by
  have hd := congrArg String.data h
  rw [fmtA, fmtA, String.data_append, String.data_append] at hd
  exact zfill_natRepr_inj (String.ext (List.append_cancel_right hd))

theorem fmtA_ne_fmtB (m n : Nat) : fmtA m ≠ fmtB n := by
  intro h
  have hd := congrArg String.data h
  rw [fmtA, fmtB, String.data_append, String.data_append] at hd
  have := (List.append_inj' hd (by decide)).2
  exact absurd this (by decide)

theorem strEnds_iff {s t : String} : strEnds s t ↔ ∃ p, p ++ t.data = s.data :=
  Iff.rfl

theorem fmtA_ends_a (n : Nat) : strEnds (fmtA n) "a.jpg" :=
  ⟨(zfill 3 (natRepr n)).data, (String.data_append _ _).symm⟩

theorem fmtB_ends_b (n : Nat) : strEnds (fmtB n) "b.jpg" :=
  ⟨(zfill 3 (natRepr n)).data, (String.data_append _ _).symm⟩

theorem strEnds_unique {s t1 t2 : String} (h1 : strEnds s t1) (h2 : strEnds s t2)
    (hl : t1.length = t2.length) : t1 = t2 := by
  rcases h1 with ⟨p1, hp1⟩
  rcases h2 with ⟨p2, hp2⟩
  have : p1 ++ t1.data = p2 ++ t2.data := by rw [hp1, hp2]
  exact String.ext (List.append_inj' this hl).2

theorem fmtA_not_ends_b (n : Nat) : ¬ strEnds (fmtA n) "b.jpg" := by
  intro h
  have := strEnds_unique (fmtA_ends_a n) h (by decide)
  exact absurd this (by decide)

theorem fmtB_not_ends_a (n : Nat) : ¬ strEnds (fmtB n) "a.jpg" := by
  intro h
  have := strEnds_unique h (fmtB_ends_b n) (by decide)
  exact absurd this (by decide)

/-! ## Length of rendered identifiers -/

theorem natDigits_length_le : ∀ k n : Nat, n < 10 ^ k → (natDigits n).length ≤ k := by
  intro k
  induction k with
  | zero =>
    intro n hn
    have : n = 0 := by simpa using hn
    subst this
    simp [natDigits_zero]
  | succ k ih =>
    intro n hn
    by_cases h : n = 0
    · subst h; simp [natDigits_zero]
    · rw [natDigits_succ n h]
      simp only [List.length_cons]
      have hq : n / 10 < 10 ^ k := by
        rw [Nat.div_lt_iff_lt_mul (by decide)]
        calc n < 10 ^ (k + 1) := hn
        _ = 10 ^ k * 10 := by ring
      exact Nat.succ_le_succ (ih (n / 10) hq)

theorem natRepr_length_le_three {n : Nat} (h : n < 1000) :
    (natRepr n).length ≤ 3 := by
  by_cases h0 : n = 0
  · subst h0; decide
  · rw [natRepr_length h0]
    exact natDigits_length_le 3 n (by omega)

theorem zfill_natRepr_length {n : Nat} (h : n < 1000) :
    (zfill 3 (natRepr n)).length = 3 := by
  by_cases h3 : 3 ≤ (natRepr n).length
  · have := natRepr_length_le_three h
    rw [zfill_of_le h3]
    omega
  · exact zfill_length_of_lt (by omega)

/-! ## Structure of the test-trial table -/

theorem swapPairs_length (f : Nat → Bool) :
    ∀ (i : Nat) (ps : List (String × String)), (swapPairs f i ps).length = ps.length := by
  intro i ps
  induction ps generalizing i with
  | nil => rfl
  | cons p ps ih => simp [swapPairs, ih]

theorem swapPairs_append (f : Nat → Bool) :
    ∀ (ps1 ps2 : List (String × String)) (i : Nat),
      swapPairs f i (ps1 ++ ps2)
        = swapPairs f i ps1 ++ swapPairs f (i + ps1.length) ps2 := by
  intro ps1
  induction ps1 with
  | nil => intro ps2 i; simp [swapPairs]
  | cons p ps ih =>
    intro ps2 i
    simp only [List.cons_append, swapPairs, List.length_cons, List.append_eq]
    rw [ih ps2 (i + 1)]
    have harith : i + 1 + ps.length = i + (ps.length + 1) := by omega
    rw [harith]

theorem mem_swapPairs (f : Nat → Bool) :
    ∀ (ps : List (String × String)) (i : Nat) (q : String × String),
      q ∈ swapPairs f i ps → ∃ p ∈ ps, q = p ∨ q = (p.2, p.1) := by
  intro ps
  induction ps with
  | nil => intro i q h; simp [swapPairs] at h
  | cons p ps ih =>
    intro i q h
    simp only [swapPairs, List.mem_cons] at h
    rcases h with h | h
    · by_cases hf : f i
      · exact ⟨p, by simp, Or.inr (by simpa [hf] using h)⟩
      · exact ⟨p, by simp, Or.inl (by simpa [hf] using h)⟩
    · rcases ih (i + 1) q h with ⟨p', hp', hq⟩
      exact ⟨p', by simp [hp'], hq⟩

theorem mkTrials_append :
    ∀ (ps1 : List (String × String)) (ts1 : List String) (bs1 : List Nat)
      (ps2 : List (String × String)) (ts2 : List String) (bs2 : List Nat),
      ps1.length = ts1.length → ts1.length = bs1.length →
      mkTrials (ps1 ++ ps2) (ts1 ++ ts2) (bs1 ++ bs2)
        = mkTrials ps1 ts1 bs1 ++ mkTrials ps2 ts2 bs2 := by
  intro ps1
  induction ps1 with
  | nil =>
    intro ts1 bs1 ps2 ts2 bs2 h1 h2
    simp only [List.length_nil] at h1
    have hts : ts1 = [] := List.length_eq_zero.mp h1.symm
    subst hts
    simp only [List.length_nil] at h2
    have hbs : bs1 = [] := List.length_eq_zero.mp h2.symm
    subst hbs
    simp [mkTrials]
  | cons p ps ih =>
    intro ts1 bs1 ps2 ts2 bs2 h1 h2
    cases ts1 with
    | nil => simp at h1
    | cons t ts =>
      cases bs1 with
      | nil => simp at h2
      | cons b bs =>
        simp only [List.length_cons] at h1 h2
        simp only [List.cons_append, mkTrials, List.append_eq]
        rw [ih ts bs ps2 ts2 bs2 (by omega) (by omega)]

theorem mkTrials_map_lureBin :
    ∀ (ps : List (String × String)) (ts : List String) (bs : List Nat),
      ps.length = bs.length → ts.length = bs.length →
      (mkTrials ps ts bs).map TestTrial.lureBin = bs := by
  intro ps
  induction ps with
  | nil =>
    intro ts bs h1 _
    simp only [List.length_nil] at h1
    have hbs : bs = [] := List.length_eq_zero.mp h1.symm
    subst hbs
    simp [mkTrials]
  | cons p ps ih =>
    intro ts bs h1 h2
    cases bs with
    | nil => simp at h1
    | cons b bs =>
      cases ts with
      | nil => simp at h2
      | cons t ts =>
        simp only [List.length_cons] at h1 h2
        simp only [mkTrials, List.map_cons]
        rw [ih ts bs (by omega) (by omega)]

theorem mem_mkTrials :
    ∀ (ps : List (String × String)) (ts : List String) (bs : List Nat)
      (tr : TestTrial), tr ∈ mkTrials ps ts bs →
      (∃ p ∈ ps, tr.left = p.1 ∧ tr.right = p.2) ∧
        tr.trialType ∈ ts ∧ tr.lureBin ∈ bs := by
  intro ps
  induction ps with
  | nil => intro ts bs tr h; simp [mkTrials] at h
  | cons p ps ih =>
    intro ts bs tr h
    cases ts with
    | nil => simp [mkTrials] at h
    | cons t ts =>
      cases bs with
      | nil => simp [mkTrials] at h
      | cons b bs =>
        simp only [mkTrials, List.mem_cons] at h
        rcases h with h | h
        · subst h
          exact ⟨⟨p, by simp, rfl, rfl⟩, by simp, by simp⟩
        · rcases ih ts bs tr h with ⟨⟨p', hp', hl, hr⟩, ht, hb⟩
          exact ⟨⟨p', by simp [hp'], hl, hr⟩, by simp [ht], by simp [hb]⟩

theorem trialType_of_mem_replicate {n : Nat} {t : String} {bs : List Nat}
    {ps : List (String × String)} {tr : TestTrial}
    (h : tr ∈ mkTrials ps (List.replicate n t) bs) : tr.trialType = t := by
  have := (mem_mkTrials ps (List.replicate n t) bs tr h).2.1
  exact List.eq_of_mem_replicate this

/-! ## Structure of the stratified grid -/

theorem optList_eq_some :
    ∀ (l : List (Option α)) (bs : List α), optList l = some bs ↔ l = bs.map some := by
  intro l
  induction l with
  | nil =>
    intro bs
    constructor
    · intro h
      have : bs = [] := by simpa [optList] using h.symm
      simp [this]
    · intro h
      have : bs = [] := by cases bs <;> simp_all
      simp [this, optList]
  | cons o rest ih =>
    intro bs
    cases o with
    | none =>
      constructor
      · intro h; simp [optList] at h
      · intro h
        cases bs with
        | nil => simp at h
        | cons b bs' => simp at h
    | some a =>
      constructor
      · intro h
        cases hrest : optList rest with
        | none => rw [optList, hrest] at h; simp at h
        | some as =>
          rw [optList, hrest] at h
          have hbs : bs = a :: as := by simpa using h.symm
          subst hbs
          simp [(ih as).mp hrest]
      · intro h
        cases bs with
        | nil => simp at h
        | cons b bs' =>
          simp only [List.map_cons, List.cons.injEq, Option.some.injEq] at h
          rw [optList, (ih bs').mpr h.2, h.1]

theorem reshapeRows_length_eq {rows cols : Nat} {l : List α} {m : List (List α)}
    (h : reshapeRows rows cols l = some m) : l.length = rows * cols := by
  rw [reshapeRows] at h
  split at h
  · assumption
  · simp at h

theorem reshapeRows_rows {rows cols : Nat} {l : List α} {m : List (List α)}
    (h : reshapeRows rows cols l = some m) :
    m = (List.range rows).map fun r => (l.drop (r * cols)).take cols := by
  rw [reshapeRows] at h
  split at h
  · exact (Option.some.inj h).symm
  · simp at h

theorem reshapeRows_getD {rows cols : Nat} {l : List α} {m : List (List α)}
    (h : reshapeRows rows cols l = some m) {r : Nat} (hr : r < rows) :
    m.getD r [] = (l.drop (r * cols)).take cols := by
  rw [reshapeRows_rows h]
  rw [List.getD_eq_getElem?_getD, List.getElem?_map]
  rw [List.getElem?_range hr]
  rfl

theorem reshapeRows_getD_length {rows cols : Nat} {l : List α} {m : List (List α)}
    (h : reshapeRows rows cols l = some m) {r : Nat} (hr : r < rows) :
    (m.getD r []).length = cols := by
  rw [reshapeRows_getD h hr, List.length_take, List.length_drop,
    reshapeRows_length_eq h]
  have h1 : (r + 1) * cols ≤ rows * cols := Nat.mul_le_mul_right cols hr
  have h2 : (r + 1) * cols = r * cols + cols := by ring
  omega

theorem reshapeRows_getD_subset {rows cols : Nat} {l : List α} {m : List (List α)}
    (h : reshapeRows rows cols l = some m) (r : Nat) : m.getD r [] ⊆ l := by
  by_cases hr : r < rows
  · rw [reshapeRows_getD h hr]
    exact fun x hx => List.drop_subset _ l (List.take_subset _ _ hx)
  · have hm : m.length = rows := by rw [reshapeRows_rows h]; simp
    rw [List.getD_eq_default]
    · simp
    · omega

theorem binsU_eq_nil_iff (table : List (Nat × Nat)) : binsU table = [] ↔ table = [] := by
  have hp := List.perm_insertionSort (· ≤ ·) (table.map Prod.snd).dedup
  constructor
  · intro h
    rw [binsU, uniqueSorted] at h
    rw [h] at hp
    have hd : (table.map Prod.snd).dedup = [] := hp.symm.eq_nil
    have := (List.dedup_eq_nil _).mp hd
    exact List.map_eq_nil_iff.mp this
  · intro h
    subst h
    rfl

theorem stratify_parts {table : List (Nat × Nat)} {nc ipc : Nat}
    {rand : Nat → List Nat → List Nat} {arr : List (List Nat)} {bins : List Nat}
    (hs : stratify table nc ipc rand = some (arr, bins)) :
    ∃ blocks : List (List (List Nat)),
      optList ((binsU table).map fun b =>
          reshapeRows nc (ipbOf table ipc) (binShuffled table ipc rand b)) = some blocks ∧
      arr = (List.range nc).map (fun r =>
        (blocks.map fun blk => blk.getD r []).flatten ++
          List.replicate (ipc - (binsU table).length * ipbOf table ipc) 0) ∧
      bins = ((binsU table).map fun b => List.replicate (ipbOf table ipc) b).flatten := by
  rw [stratify] at hs
  split at hs
  · exact absurd hs (by simp)
  · split at hs
    · exact absurd hs (by simp)
    · next blocks hblocks =>
      have h := Option.some.inj hs
      exact ⟨blocks, hblocks, (congrArg Prod.fst h).symm, (congrArg Prod.snd h).symm⟩

theorem flatten_const_length :
    ∀ (ls : List (List α)) (k : Nat), (∀ x ∈ ls, x.length = k) →
      ls.flatten.length = ls.length * k := by
  intro ls
  induction ls with
  | nil => intro k _; simp
  | cons x ls ih =>
    intro k hk
    simp only [List.flatten_cons, List.length_append, List.length_cons]
    rw [hk x (by simp), ih k (fun y hy => hk y (by simp [hy]))]
    ring

theorem stratify_bins_shape {table : List (Nat × Nat)} {nc ipc : Nat}
    {rand : Nat → List Nat → List Nat} {arr : List (List Nat)} {bins : List Nat}
    (hs : stratify table nc ipc rand = some (arr, bins)) :
    bins = ((binsU table).map fun b => List.replicate (ipbOf table ipc) b).flatten :=
  (stratify_parts hs).choose_spec.2.2

theorem stratify_bins_length {table : List (Nat × Nat)} {nc ipc : Nat}
    {rand : Nat → List Nat → List Nat} {arr : List (List Nat)} {bins : List Nat}
    (hs : stratify table nc ipc rand = some (arr, bins)) :
    bins.length = (binsU table).length * ipbOf table ipc := by
  rw [stratify_bins_shape hs]
  rw [flatten_const_length _ (ipbOf table ipc)
    (by intro x hx; rcases List.mem_map.mp hx with ⟨b, _, rfl⟩; simp)]
  rw [List.length_map]

theorem blocks_mem {table : List (Nat × Nat)} {nc ipc : Nat}
    {rand : Nat → List Nat → List Nat} {blocks : List (List (List Nat))}
    (hb : optList ((binsU table).map fun b =>
        reshapeRows nc (ipbOf table ipc) (binShuffled table ipc rand b)) = some blocks) :
    ∀ blk ∈ blocks, ∃ b ∈ binsU table,
      reshapeRows nc (ipbOf table ipc) (binShuffled table ipc rand b) = some blk := by
  intro blk hblk
  have hmap := (optList_eq_some _ _).mp hb
  have : some blk ∈ blocks.map some := List.mem_map_of_mem some hblk
  rw [← hmap] at this
  rcases List.mem_map.mp this with ⟨b, hbmem, hfb⟩
  exact ⟨b, hbmem, hfb⟩

theorem blocks_length {table : List (Nat × Nat)} {nc ipc : Nat}
    {rand : Nat → List Nat → List Nat} {blocks : List (List (List Nat))}
    (hb : optList ((binsU table).map fun b =>
        reshapeRows nc (ipbOf table ipc) (binShuffled table ipc rand b)) = some blocks) :
    blocks.length = (binsU table).length := by
  have hmap := (optList_eq_some _ _).mp hb
  have := congrArg List.length hmap
  simpa using this.symm

theorem binsU_mul_ipb_le (table : List (Nat × Nat)) (ipc : Nat) :
    (binsU table).length * ipbOf table ipc ≤ ipc := by
  rw [ipbOf, Nat.mul_comm]
  exact Nat.div_mul_le_self ipc (binsU table).length

theorem stratify_mem_arr {table : List (Nat × Nat)} {nc ipc : Nat}
    {rand : Nat → List Nat → List Nat} {arr : List (List Nat)} {bins : List Nat}
    (hs : stratify table nc ipc rand = some (arr, bins)) :
    ∀ row ∈ arr, ∃ blocks r,
      optList ((binsU table).map fun b =>
          reshapeRows nc (ipbOf table ipc) (binShuffled table ipc rand b)) = some blocks ∧
      r < nc ∧
      row = (blocks.map fun blk => blk.getD r []).flatten ++
        List.replicate (ipc - (binsU table).length * ipbOf table ipc) 0 := by
  intro row hrow
  rcases stratify_parts hs with ⟨blocks, hblocks, harr, _⟩
  rw [harr] at hrow
  rcases List.mem_map.mp hrow with ⟨r, hr, rfl⟩
  exact ⟨blocks, r, hblocks, List.mem_range.mp hr, rfl⟩

theorem stratify_row_flat_length {table : List (Nat × Nat)} {nc ipc : Nat}
    {rand : Nat → List Nat → List Nat} {blocks : List (List (List Nat))}
    (hblocks : optList ((binsU table).map fun b =>
        reshapeRows nc (ipbOf table ipc) (binShuffled table ipc rand b)) = some blocks)
    {r : Nat} (hr : r < nc) :
    ((blocks.map fun blk => blk.getD r []).flatten).length
      = (binsU table).length * ipbOf table ipc := by
  rw [flatten_const_length _ (ipbOf table ipc) (by
    intro x hx
    rcases List.mem_map.mp hx with ⟨blk, hblk, rfl⟩
    rcases blocks_mem hblocks blk hblk with ⟨b, _, hre⟩
    exact reshapeRows_getD_length hre hr)]
  rw [List.length_map, blocks_length hblocks]

theorem stratify_row_length {table : List (Nat × Nat)} {nc ipc : Nat}
    {rand : Nat → List Nat → List Nat} {arr : List (List Nat)} {bins : List Nat}
    (hs : stratify table nc ipc rand = some (arr, bins)) :
    ∀ row ∈ arr, row.length = ipc := by
  intro row hrow
  rcases stratify_mem_arr hs row hrow with ⟨blocks, r, hblocks, hr, rfl⟩
  rw [List.length_append, List.length_replicate,
    stratify_row_flat_length hblocks hr]
  have := binsU_mul_ipb_le table ipc
  omega

theorem stratify_trailing_zero {table : List (Nat × Nat)} {nc ipc : Nat}
    {rand : Nat → List Nat → List Nat} {arr : List (List Nat)} {bins : List Nat}
    (hs : stratify table nc ipc rand = some (arr, bins)) :
    ∀ row ∈ arr, ∀ j, ∀ hj : j < row.length,
      (binsU table).length * ipbOf table ipc ≤ j → row.get ⟨j, hj⟩ = 0 := by
  intro row hrow j hj hge
  rcases stratify_mem_arr hs row hrow with ⟨blocks, r, hblocks, hr, rfl⟩
  rw [List.get_eq_getElem]
  rw [List.getElem_append_right (by
    rw [stratify_row_flat_length hblocks hr]; exact hge)]
  exact List.getElem_replicate ..

theorem stratify_entries {table : List (Nat × Nat)} {nc ipc : Nat}
    {rand : Nat → List Nat → List Nat} {arr : List (List Nat)} {bins : List Nat}
    (hrand : validPermB rand)
    (hs : stratify table nc ipc rand = some (arr, bins)) :
    ∀ row ∈ arr, ∀ v ∈ row, (∃ p ∈ table, p.1 = v) ∨ v = 0 := by
  intro row hrow v hv
  rcases stratify_mem_arr hs row hrow with ⟨blocks, r, hblocks, hr, rfl⟩
  rcases List.mem_append.mp hv with hv | hv
  · left
    rcases List.mem_flatten.mp hv with ⟨blkrow, hblkrow, hvrow⟩
    rcases List.mem_map.mp hblkrow with ⟨blk, hblk, rfl⟩
    rcases blocks_mem hblocks blk hblk with ⟨b, _, hre⟩
    have h1 : v ∈ binShuffled table ipc rand b :=
      reshapeRows_getD_subset hre r hvrow
    have h2 : v ∈ rand b (binImgs table b) := List.take_subset _ _ h1
    have h3 : v ∈ binImgs table b := (hrand b (binImgs table b)).mem_iff.mp h2
    rcases List.mem_map.mp h3 with ⟨p, hp, rfl⟩
    exact ⟨p, List.mem_of_mem_filter hp, rfl⟩
  · right
    exact List.eq_of_mem_replicate hv

theorem test_trials_parts {arr : List (List Nat)} {bins : List Nat} {ipc : Nat}
    {swapF : Nat → Bool} {randT : List TestTrial → List TestTrial} {l : List TestTrial}
    (ht : generate_test_trials arr bins ipc swapF randT = some l) :
    ∃ r0 r1 r2 r3 r4 rest, arr = r0 :: r1 :: r2 :: r3 :: r4 :: rest ∧
      r1.length = r2.length ∧ r3.length = r4.length ∧
      (swapPairs swapF 0 ((testPairsRaw r0 r1 r2 r3 r4).map fmtPair)).length = 3 * ipc ∧
      (bins ++ bins ++ bins).length = 3 * ipc ∧
      l = randT (mkTrials
        (swapPairs swapF 0 ((testPairsRaw r0 r1 r2 r3 r4).map fmtPair))
        (List.replicate ipc typeAA ++ List.replicate ipc typeBC ++
          List.replicate ipc typeDX)
        (bins ++ bins ++ bins)) := by
  cases arr with
  | nil => simp [generate_test_trials] at ht
  | cons r0 t0 =>
  cases t0 with
  | nil => simp [generate_test_trials] at ht
  | cons r1 t1 =>
  cases t1 with
  | nil => simp [generate_test_trials] at ht
  | cons r2 t2 =>
  cases t2 with
  | nil => simp [generate_test_trials] at ht
  | cons r3 t3 =>
  cases t3 with
  | nil => simp [generate_test_trials] at ht
  | cons r4 rest =>
  refine ⟨r0, r1, r2, r3, r4, rest, rfl, ?_⟩
  rw [generate_test_trials] at ht
  split at ht
  · next hg1 =>
    split at ht
    · next hg2 =>
      exact ⟨hg1.1, hg1.2, hg2.1, hg2.2, (Option.some.inj ht).symm⟩
    · exact absurd ht (by simp)
  · exact absurd ht (by simp)

theorem generate_trials_parts {table : List (Nat × Nat)} {nc ipc : Nat}
    {randB : Nat → List Nat → List Nat} {randE : List Nat → List Nat}
    {swapF : Nat → Bool} {randT : List TestTrial → List TestTrial}
    {enc : List String} {test : List TestTrial}
    (hp : generate_trials table nc ipc randB randE swapF randT = some (enc, test)) :
    ∃ arr bins, stratify table nc ipc randB = some (arr, bins) ∧
      generate_test_trials arr bins ipc swapF randT = some test ∧
      enc = generate_enc_trials arr nc randE := by
  rw [generate_trials] at hp
  split at hp
  · exact absurd hp (by simp)
  · next imgs bins hstrat =>
    split at hp
    · exact absurd hp (by simp)
    · next test' htest =>
      have h := Option.some.inj hp
      have henc : generate_enc_trials imgs nc randE = enc := congrArg Prod.fst h
      have htst : test' = test := congrArg Prod.snd h
      exact ⟨imgs, bins, hstrat, htst ▸ htest, henc.symm⟩

theorem test_filter_perm {arr : List (List Nat)} {bins : List Nat} {ipc : Nat}
    {swapF : Nat → Bool} {randT : List TestTrial → List TestTrial} {l : List TestTrial}
    (hT : validPermT randT)
    (hrows : ∀ row ∈ arr, row.length = ipc)
    (ht : generate_test_trials arr bins ipc swapF randT = some l) :
    bins.length = ipc ∧
    ((l.filter fun tr => tr.trialType == typeAA).map TestTrial.lureBin).Perm bins ∧
    ((l.filter fun tr => tr.trialType == typeBC).map TestTrial.lureBin).Perm bins ∧
    ((l.filter fun tr => tr.trialType == typeDX).map TestTrial.lureBin).Perm bins := by
  rcases test_trials_parts ht with
    ⟨r0, r1, r2, r3, r4, rest, harr, h12, h34, hg2a, hg2b, hl⟩
  subst harr
  have hr0 : r0.length = ipc := hrows r0 (by simp)
  have hr1 : r1.length = ipc := hrows r1 (by simp)
  have hr3 : r3.length = ipc := hrows r3 (by simp)
  have hbins : bins.length = ipc := by
    simp only [List.length_append] at hg2b
    omega
  have hlA : ((r0.zip r0).map fmtPair).length = ipc := by
    rw [List.length_map, List.length_zip]
    omega
  have hlB : ((r1.zip r2).map fmtPair).length = ipc := by
    rw [List.length_map, List.length_zip]
    omega
  have hlC : ((r3.zip r4).map fmtPair).length = ipc := by
    rw [List.length_map, List.length_zip]
    omega
  rw [testPairsRaw, List.map_append, List.map_append,
    swapPairs_append, swapPairs_append] at hl
  rw [mkTrials_append _ _ _ _ _ _
      (by rw [List.length_append, List.length_append,
        swapPairs_length, swapPairs_length, List.length_replicate,
        List.length_replicate, hlA, hlB])
      (by rw [List.length_append, List.length_append, List.length_replicate,
        List.length_replicate]; omega)] at hl
  rw [mkTrials_append _ _ _ _ _ _
      (by rw [swapPairs_length, List.length_replicate, hlA])
      (by rw [List.length_replicate]; omega)] at hl
  set TA := mkTrials (swapPairs swapF 0 ((r0.zip r0).map fmtPair))
    (List.replicate ipc typeAA) bins with hTA
  set TB := mkTrials (swapPairs swapF (0 + ((r0.zip r0).map fmtPair).length)
      ((r1.zip r2).map fmtPair)) (List.replicate ipc typeBC) bins with hTB
  set TC := mkTrials (swapPairs swapF
      (0 + (((r0.zip r0).map fmtPair) ++ ((r1.zip r2).map fmtPair)).length)
      ((r3.zip r4).map fmtPair)) (List.replicate ipc typeDX) bins with hTC
  have hperm : l.Perm (TA ++ TB ++ TC) := hl ▸ hT _
  have hmapA : TA.map TestTrial.lureBin = bins := by
    rw [hTA]
    exact mkTrials_map_lureBin _ _ _
      (by rw [swapPairs_length, hlA, hbins]) (by rw [List.length_replicate, hbins])
  have hmapB : TB.map TestTrial.lureBin = bins := by
    rw [hTB]
    exact mkTrials_map_lureBin _ _ _
      (by rw [swapPairs_length, hlB, hbins]) (by rw [List.length_replicate, hbins])
  have hmapC : TC.map TestTrial.lureBin = bins := by
    rw [hTC]
    exact mkTrials_map_lureBin _ _ _
      (by rw [swapPairs_length, hlC, hbins]) (by rw [List.length_replicate, hbins])
  have hfA : ∀ tr ∈ TA, tr.trialType = typeAA := fun tr htr =>
    trialType_of_mem_replicate (hTA ▸ htr)
  have hfB : ∀ tr ∈ TB, tr.trialType = typeBC := fun tr htr =>
    trialType_of_mem_replicate (hTB ▸ htr)
  have hfC : ∀ tr ∈ TC, tr.trialType = typeDX := fun tr htr =>
    trialType_of_mem_replicate (hTC ▸ htr)
  refine ⟨hbins, ?_, ?_, ?_⟩
  · have h1 : ((TA ++ TB ++ TC).filter fun tr => tr.trialType == typeAA) = TA := by
      rw [List.filter_append, List.filter_append]
      rw [List.filter_eq_self.mpr (fun tr htr => by
        rw [hfA tr htr]; exact beq_self_eq_true typeAA)]
      rw [List.filter_eq_nil_iff.mpr (fun tr htr => by
        rw [hfB tr htr]; decide)]
      rw [List.filter_eq_nil_iff.mpr (fun tr htr => by
        rw [hfC tr htr]; decide)]
      simp
    have step : ((l.filter fun tr => tr.trialType == typeAA).map
        TestTrial.lureBin).Perm
        (((TA ++ TB ++ TC).filter fun tr => tr.trialType == typeAA).map
          TestTrial.lureBin) := (hperm.filter _).map _
    rw [h1, hmapA] at step
    exact step
  · have h1 : ((TA ++ TB ++ TC).filter fun tr => tr.trialType == typeBC) = TB := by
      rw [List.filter_append, List.filter_append]
      rw [List.filter_eq_nil_iff.mpr (fun tr htr => by
        rw [hfA tr htr]; decide)]
      rw [List.filter_eq_self.mpr (fun tr htr => by
        rw [hfB tr htr]; exact beq_self_eq_true typeBC)]
      rw [List.filter_eq_nil_iff.mpr (fun tr htr => by
        rw [hfC tr htr]; decide)]
      simp
    have step : ((l.filter fun tr => tr.trialType == typeBC).map
        TestTrial.lureBin).Perm
        (((TA ++ TB ++ TC).filter fun tr => tr.trialType == typeBC).map
          TestTrial.lureBin) := (hperm.filter _).map _
    rw [h1, hmapB] at step
    exact step
  · have h1 : ((TA ++ TB ++ TC).filter fun tr => tr.trialType == typeDX) = TC := by
      rw [List.filter_append, List.filter_append]
      rw [List.filter_eq_nil_iff.mpr (fun tr htr => by
        rw [hfA tr htr]; decide)]
      rw [List.filter_eq_nil_iff.mpr (fun tr htr => by
        rw [hfB tr htr]; decide)]
      rw [List.filter_eq_self.mpr (fun tr htr => by
        rw [hfC tr htr]; exact beq_self_eq_true typeDX)]
      simp
    have step : ((l.filter fun tr => tr.trialType == typeDX).map
        TestTrial.lureBin).Perm
        (((TA ++ TB ++ TC).filter fun tr => tr.trialType == typeDX).map
          TestTrial.lureBin) := (hperm.filter _).map _
    rw [h1, hmapC] at step
    exact step

theorem exactlyOneSuffix_of_fmt {x y : Nat} {tr : TestTrial}
    (h : (tr.left = fmtA x ∧ tr.right = fmtB y) ∨
      (tr.left = fmtB y ∧ tr.right = fmtA x)) : exactlyOneSuffix tr := by
  rcases h with ⟨hl, hr⟩ | ⟨hl, hr⟩
  · left
    rw [hl, hr]
    exact ⟨fmtA_ends_a x, fmtB_ends_b y, fmtA_not_ends_b x, fmtB_not_ends_a y⟩
  · right
    rw [hl, hr]
    exact ⟨fmtB_ends_b y, fmtA_ends_a x, fmtB_not_ends_a y, fmtA_not_ends_b x⟩

theorem exactlyOneSuffix_of_paired {ra rb : List Nat} {tr : TestTrial}
    (h : pairedSameCol ra rb tr) : exactlyOneSuffix tr := by
  rcases h with ⟨i, ha, hb, hcase⟩
  exact exactlyOneSuffix_of_fmt hcase

theorem mem_block_paired {ra rb : List Nat} {ts : List String} {bs : List Nat}
    {f : Nat → Bool} {off : Nat} {tr : TestTrial}
    (h : tr ∈ mkTrials (swapPairs f off ((ra.zip rb).map fmtPair)) ts bs) :
    pairedSameCol ra rb tr ∧ tr.lureBin ∈ bs := by
  rcases mem_mkTrials _ _ _ _ h with ⟨⟨p, hp, hl, hr⟩, _, hbmem⟩
  rcases mem_swapPairs f _ off p hp with ⟨q, hq, hpq⟩
  rcases List.mem_map.mp hq with ⟨pr, hpr, rfl⟩
  rcases List.mem_iff_getElem.mp hpr with ⟨i, hi, hpri⟩
  have hia : i < ra.length := by
    rw [List.length_zip] at hi
    omega
  have hib : i < rb.length := by
    rw [List.length_zip] at hi
    omega
  have hzip : (ra.zip rb)[i] = (ra[i], rb[i]) := List.getElem_zip ..
  rw [hzip] at hpri
  refine ⟨⟨i, hia, hib, ?_⟩, hbmem⟩
  rcases hpq with rfl | rfl
  · left
    rw [← hpri] at hl hr
    exact ⟨hl, hr⟩
  · right
    rw [← hpri] at hl hr
    exact ⟨hl, hr⟩

/-- Decomposition of a successful `generate_test_trials` run into its
three typed blocks (before the final row shuffle). -/
theorem test_blocks {bins : List Nat} {ipc : Nat}
    {swapF : Nat → Bool} {randT : List TestTrial → List TestTrial}
    {l : List TestTrial} {r0 r1 r2 r3 r4 : List Nat} {rest : List (List Nat)}
    (hrows : ∀ row ∈ r0 :: r1 :: r2 :: r3 :: r4 :: rest, row.length = ipc)
    (ht : generate_test_trials (r0 :: r1 :: r2 :: r3 :: r4 :: rest) bins ipc
      swapF randT = some l) :
    bins.length = ipc ∧
    ∃ iB iC,
      l = randT
        (mkTrials (swapPairs swapF 0 ((r0.zip r0).map fmtPair))
            (List.replicate ipc typeAA) bins ++
          mkTrials (swapPairs swapF iB ((r1.zip r2).map fmtPair))
            (List.replicate ipc typeBC) bins ++
          mkTrials (swapPairs swapF iC ((r3.zip r4).map fmtPair))
            (List.replicate ipc typeDX) bins) := by
  rcases test_trials_parts ht with
    ⟨r0', r1', r2', r3', r4', rest', harr, h12, h34, hg2a, hg2b, hl⟩
  have heq := harr
  simp only [List.cons.injEq] at heq
  obtain ⟨e0, e1, e2, e3, e4, _⟩ := heq
  subst e0; subst e1; subst e2; subst e3; subst e4
  have hr0 : r0.length = ipc := hrows r0 (by simp)
  have hr1 : r1.length = ipc := hrows r1 (by simp)
  have hr3 : r3.length = ipc := hrows r3 (by simp)
  have hbins : bins.length = ipc := by
    simp only [List.length_append] at hg2b
    omega
  have hlA : ((r0.zip r0).map fmtPair).length = ipc := by
    rw [List.length_map, List.length_zip]
    omega
  have hlB : ((r1.zip r2).map fmtPair).length = ipc := by
    rw [List.length_map, List.length_zip]
    omega
  rw [testPairsRaw, List.map_append, List.map_append,
    swapPairs_append, swapPairs_append] at hl
  rw [mkTrials_append _ _ _ _ _ _
      (by rw [List.length_append, List.length_append,
        swapPairs_length, swapPairs_length, List.length_replicate,
        List.length_replicate, hlA, hlB])
      (by rw [List.length_append, List.length_append, List.length_replicate,
        List.length_replicate]; omega)] at hl
  rw [mkTrials_append _ _ _ _ _ _
      (by rw [swapPairs_length, List.length_replicate, hlA])
      (by rw [List.length_replicate]; omega)] at hl
  exact ⟨hbins, _, _, hl⟩

/-! ## Structure of the encoding-trial list -/

theorem enc_eq_map (img_cond_arr : List (List Nat)) (num_cond : Nat)
    (rand : List Nat → List Nat) :
    generate_enc_trials img_cond_arr num_cond rand
      = (rand ((img_cond_arr.take (num_cond - 1)).flatten)).map fmtA := by
  rw [generate_enc_trials, make_three_digits, List.map_map]
  rfl

theorem enc_perm {img_cond_arr : List (List Nat)} {num_cond : Nat}
    {rand : List Nat → List Nat} (hE : validPermE rand) :
    (generate_enc_trials img_cond_arr num_cond rand).Perm
      (((img_cond_arr.take (num_cond - 1)).flatten).map fmtA) := by
  rw [enc_eq_map]
  exact (hE _).map _

theorem binImgs_nodup {table : List (Nat × Nat)}
    (hids : (table.map Prod.fst).Nodup) (b : Nat) : (binImgs table b).Nodup := by
  have h1 : (table.filter fun p => p.2 == b).Sublist table := List.filter_sublist table
  exact (h1.map Prod.fst).nodup hids

theorem binShuffled_nodup {table : List (Nat × Nat)} {ipc : Nat}
    {rand : Nat → List Nat → List Nat} (hrand : validPermB rand)
    (hids : (table.map Prod.fst).Nodup) (b : Nat) :
    (binShuffled table ipc rand b).Nodup :=
  (List.take_sublist _ _).nodup
    ((hrand b (binImgs table b)).nodup_iff.mpr (binImgs_nodup hids b))

theorem binShuffled_subset (table : List (Nat × Nat)) (ipc : Nat)
    {rand : Nat → List Nat → List Nat} (hrand : validPermB rand) (b : Nat) :
    binShuffled table ipc rand b ⊆ binImgs table b := by
  intro x hx
  exact (hrand b (binImgs table b)).mem_iff.mp (List.take_subset _ _ hx)

theorem slice_disjoint {l : List Nat} (hnd : l.Nodup) {cols r r' : Nat}
    (hlt : r < r') :
    List.Disjoint ((l.drop (r * cols)).take cols) ((l.drop (r' * cols)).take cols) := by
  have h1 : (l.drop (r * cols)).take cols ⊆ l.take (r * cols + cols) := by
    rw [List.take_drop]
    exact List.drop_subset _ _
  have h2 : (l.drop (r' * cols)).take cols ⊆ l.drop (r' * cols) :=
    List.take_subset _ _
  have hle : r * cols + cols ≤ r' * cols := by
    have h3 : (r + 1) * cols ≤ r' * cols := Nat.mul_le_mul_right cols hlt
    rw [Nat.succ_mul] at h3
    exact h3
  exact List.disjoint_of_subset_left h1
    (List.disjoint_of_subset_right h2 (List.disjoint_take_drop hnd hle))

theorem fst_inj_of_nodup :
    ∀ (table : List (Nat × Nat)), (table.map Prod.fst).Nodup →
      ∀ p ∈ table, ∀ q ∈ table, p.1 = q.1 → p = q := by
  intro table
  induction table with
  | nil => intro _ p hp; simp at hp
  | cons a t ih =>
    intro hnd p hp q hq hpq
    simp only [List.map_cons, List.nodup_cons] at hnd
    rcases List.mem_cons.mp hp with rfl | hp' <;>
      rcases List.mem_cons.mp hq with rfl | hq'
    · rfl
    · exact absurd (hpq ▸ List.mem_map_of_mem Prod.fst hq') hnd.1
    · exact absurd (hpq ▸ List.mem_map_of_mem Prod.fst hp') hnd.1
    · exact ih hnd.2 p hp' q hq' hpq

theorem mem_binImgs_pair {table : List (Nat × Nat)} {b x : Nat}
    (h : x ∈ binImgs table b) : (x, b) ∈ table := by
  rcases List.mem_map.mp h with ⟨p, hp, rfl⟩
  have hfilter := List.mem_filter.mp hp
  have hb : p.2 = b := by simpa using hfilter.2
  have : p = (p.1, b) := by
    rw [← hb]
  rw [← this]
  exact hfilter.1

theorem binImgs_disjoint {table : List (Nat × Nat)}
    (hids : (table.map Prod.fst).Nodup) {b b' : Nat} (hne : b ≠ b') :
    List.Disjoint (binImgs table b) (binImgs table b') := by
  intro x hx hx'
  have h1 := mem_binImgs_pair hx
  have h2 := mem_binImgs_pair hx'
  have := fst_inj_of_nodup table hids (x, b) h1 (x, b') h2 rfl
  exact hne (congrArg Prod.snd this)

/-- Every entry of grid row `r` (below the padding) lies in some bin's
shuffled, truncated image list, at that row's slice. -/
theorem row_entry {table : List (Nat × Nat)} {nc ipc : Nat}
    {rand : Nat → List Nat → List Nat} {blocks : List (List (List Nat))}
    (hblocks : optList ((binsU table).map fun b =>
        reshapeRows nc (ipbOf table ipc) (binShuffled table ipc rand b)) = some blocks)
    {r : Nat} (hr : r < nc) {v : Nat}
    (hv : v ∈ (blocks.map fun blk => blk.getD r []).flatten) :
    ∃ b ∈ binsU table,
      v ∈ ((binShuffled table ipc rand b).drop (r * ipbOf table ipc)).take
        (ipbOf table ipc) := by
  rcases List.mem_flatten.mp hv with ⟨blkrow, hblkrow, hvrow⟩
  rcases List.mem_map.mp hblkrow with ⟨blk, hblk, rfl⟩
  rcases blocks_mem hblocks blk hblk with ⟨b, hbmem, hre⟩
  refine ⟨b, hbmem, ?_⟩
  rw [← reshapeRows_getD hre hr]
  exact hvrow

theorem rows_disjoint {table : List (Nat × Nat)} {nc ipc : Nat}
    {rand : Nat → List Nat → List Nat} {blocks : List (List (List Nat))}
    (hrand : validPermB rand) (hids : (table.map Prod.fst).Nodup)
    (hblocks : optList ((binsU table).map fun b =>
        reshapeRows nc (ipbOf table ipc) (binShuffled table ipc rand b)) = some blocks)
    {r r' : Nat} (hr : r < nc) (hr' : r' < nc) (hne : r ≠ r') {v : Nat}
    (hv : v ∈ (blocks.map fun blk => blk.getD r []).flatten) :
    v ∉ (blocks.map fun blk => blk.getD r' []).flatten := by
  intro hv'
  rcases row_entry hblocks hr hv with ⟨b, _, hslice⟩
  rcases row_entry hblocks hr' hv' with ⟨b', _, hslice'⟩
  by_cases hbb : b = b'
  · subst hbb
    have hnd := @binShuffled_nodup table ipc rand hrand hids b
    rcases Nat.lt_or_ge r r' with hlt | hge
    · exact slice_disjoint hnd hlt hslice hslice'
    · have hlt : r' < r := by omega
      exact slice_disjoint hnd hlt hslice' hslice
  · have h1 : v ∈ binImgs table b :=
      binShuffled_subset table ipc hrand b (List.drop_subset _ _ (List.take_subset _ _ hslice))
    have h2 : v ∈ binImgs table b' :=
      binShuffled_subset table ipc hrand b' (List.drop_subset _ _ (List.take_subset _ _ hslice'))
    exact binImgs_disjoint hids hbb h1 h2

/-! ## Sortedness of the bin vector -/

theorem sorted_replicate (k a : Nat) : (List.replicate k a).Sorted (· ≤ ·) := by
  induction k with
  | zero => simp
  | succ k ih =>
    rw [List.replicate_succ]
    refine List.Pairwise.cons ?_ ih
    intro y hy
    rw [List.eq_of_mem_replicate hy]

theorem flatten_replicate_sorted :
    ∀ (u : List Nat) (k : Nat), u.Sorted (· ≤ ·) →
      ((u.map fun b => List.replicate k b).flatten).Sorted (· ≤ ·) := by
  intro u
  induction u with
  | nil => intro k _; simp
  | cons a u ih =>
    intro k hs
    simp only [List.map_cons, List.flatten_cons]
    rw [List.Sorted, List.pairwise_append]
    refine ⟨sorted_replicate k a, ih k hs.of_cons, ?_⟩
    intro x hx y hy
    rw [List.eq_of_mem_replicate hx]
    rcases List.mem_flatten.mp hy with ⟨ys, hys, hyy⟩
    rcases List.mem_map.mp hys with ⟨b, hb, rfl⟩
    rw [List.eq_of_mem_replicate hyy]
    exact List.rel_of_sorted_cons hs b hb

theorem stratify_bins_sorted {table : List (Nat × Nat)} {nc ipc : Nat}
    {rand : Nat → List Nat → List Nat} {arr : List (List Nat)} {bins : List Nat}
    (hs : stratify table nc ipc rand = some (arr, bins)) :
    bins.Sorted (· ≤ ·) := by
  rw [stratify_bins_shape hs]
  exact flatten_replicate_sorted _ _ (List.sorted_insertionSort _ _)

/-! ## When stratification succeeds -/

theorem optList_isSome_iff :
    ∀ l : List (Option α), (optList l).isSome = true ↔ ∀ o ∈ l, o.isSome = true := by
  intro l
  induction l with
  | nil => simp [optList]
  | cons o rest ih =>
    cases o with
    | none => simp [optList]
    | some a =>
      cases hrest : optList rest with
      | none =>
        simp only [optList, hrest]
        constructor
        · intro h; simp at h
        · intro h
          have := ih.mpr (fun o ho => h o (by simp [ho]))
          rw [hrest] at this
          simp at this
      | some as =>
        simp only [optList, hrest]
        constructor
        · intro _ o ho
          rcases List.mem_cons.mp ho with rfl | ho'
          · rfl
          · exact (ih.mp (by rw [hrest]; rfl)) o ho'
        · intro _
          rfl

theorem reshapeRows_isSome {rows cols : Nat} {l : List α} :
    (reshapeRows rows cols l).isSome = true ↔ l.length = rows * cols := by
  rw [reshapeRows]
  split <;> simp [*]

theorem stratify_isSome_iff {table : List (Nat × Nat)} {nc ipc : Nat}
    {rand : Nat → List Nat → List Nat} (hrand : validPermB rand) :
    (stratify table nc ipc rand).isSome = true ↔
      (table ≠ [] ∧ ∀ b ∈ binsU table,
        min ipc (binImgs table b).length = nc * ipbOf table ipc) := by
  rw [stratify]
  split
  · next hempty =>
    have : table = [] := (binsU_eq_nil_iff table).mp (List.isEmpty_iff.mp hempty)
    simp [this]
  · next hempty =>
    have htab : table ≠ [] := by
      intro hc
      exact hempty (by rw [hc]; rfl)
    have hlen : ∀ b, (binShuffled table ipc rand b).length
        = min ipc (binImgs table b).length := by
      intro b
      rw [binShuffled, List.length_take, (hrand b _).length_eq]
    cases hopt : optList ((binsU table).map fun b =>
        reshapeRows nc (ipbOf table ipc) (binShuffled table ipc rand b)) with
    | none =>
      simp only [hopt, Option.isSome_none]
      constructor
      · intro h
        exact absurd h (by simp)
      · rintro ⟨_, hall⟩
        exfalso
        have hsome : ∀ o ∈ (binsU table).map fun b =>
            reshapeRows nc (ipbOf table ipc) (binShuffled table ipc rand b),
            o.isSome = true := by
          intro o ho
          rcases List.mem_map.mp ho with ⟨b, hb, rfl⟩
          rw [reshapeRows_isSome, hlen b]
          exact hall b hb
        have := (optList_isSome_iff _).mpr hsome
        rw [hopt] at this
        simp at this
    | some blocks =>
      simp only [hopt, Option.isSome_some, true_iff]
      refine ⟨htab, fun b hb => ?_⟩
      have hsome := (optList_isSome_iff _).mp (by rw [hopt]; rfl)
      have := hsome (reshapeRows nc (ipbOf table ipc) (binShuffled table ipc rand b))
        (List.mem_map_of_mem _ hb)
      rw [reshapeRows_isSome, hlen b] at this
      exact this

theorem cons_eraseIdx_perm {l : List α} {i : Nat} {x : α}
    (h : l[i]? = some x) : (x :: l.eraseIdx i).Perm l := by
  rcases List.getElem?_eq_some.mp h with ⟨hi, hx⟩
  rw [List.eraseIdx_eq_take_drop_succ]
  have hdrop : l.drop i = l[i] :: l.drop (i + 1) := List.drop_eq_getElem_cons hi
  have : (l.take i ++ x :: l.drop (i + 1)).Perm (x :: (l.take i ++ l.drop (i + 1))) :=
    List.perm_middle
  refine (this.symm).trans ?_
  rw [hx] at hdrop
  rw [← hdrop, List.take_append_drop]

theorem shuffleFuel_perm : ∀ (fuel s : Nat) (l : List α), (shuffleFuel fuel s l).Perm l := by
  intro fuel
  induction fuel with
  | zero => intro s l; rfl
  | succ fuel ih =>
    intro s l
    cases l with
    | nil => rfl
    | cons a l =>
      have hi : s % (a :: l).length < (a :: l).length :=
        Nat.mod_lt s (by simp)
      rw [shuffleFuel]
      rw [List.getElem?_eq_getElem hi]
      exact ((ih (lcg s) _).cons _).trans
        (cons_eraseIdx_perm (List.getElem?_eq_getElem hi))

theorem shuffle_perm (s : Nat) (l : List α) : (shuffle s l).Perm l :=
  shuffleFuel_perm l.length s l

/-! ## Claim theorems -/

/-- C5: evaluation of the formatter at the failing input.  The source
passes the literal width 3 to `np.char.zfill`, ignoring the `digits`
parameter, so `[7]` with `digits=4` yields `"007"` (its own docstring
promises `"0007"`); the `digits=3` examples behave as documented. -/
theorem C5_formatter_eval :
    make_three_digits [7] 4 = ["007"] ∧ make_three_digits [7] 4 ≠ ["0007"] ∧
    make_three_digits [7] 3 = ["007"] ∧ make_three_digits [123] 3 = ["123"] := by
  decide

/-- C6 counterexample: with identifier 12345 and `digits=3` the formatter
returns `"12345"` unchanged — a 5-character string, not a left-truncated
string of exactly 3 characters as the claim states. -/
theorem C6_counterexample :
    make_three_digits [12345] 3 = ["12345"] ∧ ("12345" : String).length ≠ 3 := by
  decide

/-- C6 (amended): an identifier whose decimal representation needs more
than 3 characters is returned unpadded and untruncated, with no error;
`str.zfill` never shortens its argument and the `digits` parameter is
ignored. -/
theorem C6_no_truncation (x digits : Nat) (h : 3 < (natRepr x).length) :
    make_three_digits [x] digits = [natRepr x] := by
  rw [make_three_digits]
  simp only [List.map_cons, List.map_nil]
  rw [zfill_of_le (by omega)]

theorem C6_no_truncation_witness :
    3 < (natRepr 12345).length ∧ make_three_digits [12345] 3 = [natRepr 12345] :=
  ⟨by decide, C6_no_truncation 12345 3 (by decide)⟩

/-- C2 counterexample: with `img_per_cond=36` against `T175` (5 bins of
exactly 35 images), stratification does not fail: each bin's 35 images
truncate to 35 = 5*7 and reshape cleanly, so a grid is returned and the
BinVector has length 35 (silent truncation), not 36. -/
theorem C2_counterexample :
    (stratify T175 5 36 idRandB).isSome = true ∧
    (stratify T175 5 36 idRandB).map (fun p => p.2.length) = some 35 := by
  decide

/-- C2 (amended): no `DataError` path exists.  For any permutation
oracle, stratify succeeds exactly when the table is nonempty and every
bin's truncated image count `min(img_per_cond, count_b)` equals
`num_cond * (img_per_cond / num_bins)`; otherwise the reshape fails.
In particular `img_per_cond=36` with 5 bins of exactly 35 images
succeeds, silently truncating to a 35-column payload. -/
theorem C2_stratify_success_iff (table : List (Nat × Nat)) (nc ipc : Nat)
    (rand : Nat → List Nat → List Nat) (hrand : validPermB rand) :
    (stratify table nc ipc rand).isSome = true ↔
      (table ≠ [] ∧ ∀ b ∈ binsU table,
        min ipc (binImgs table b).length = nc * ipbOf table ipc) :=
  stratify_isSome_iff hrand

theorem C2_success_iff_witness :
    ((stratify T175 5 36 idRandB).isSome = true ↔
      (T175 ≠ [] ∧ ∀ b ∈ binsU T175,
        min 36 (binImgs T175 b).length = 5 * ipbOf T175 36)) ∧
    (stratify T175 5 36 idRandB).isSome = true :=
  ⟨C2_stratify_success_iff T175 5 36 idRandB (fun b l => List.Perm.refl l),
    (C2_stratify_success_iff T175 5 36 idRandB (fun b l => List.Perm.refl l)).mpr
      (by decide)⟩

/-- C10: whenever stratification returns, the BinVector has length
`num_bins * (img_per_cond / num_bins)`; when the bin count does not
divide `img_per_cond` this is strictly less than `img_per_cond`, so the
BinVector is not parallel to all grid columns, and every row keeps its
zero initialisation in the trailing columns. -/
theorem C10_binvector_length (table : List (Nat × Nat)) (nc ipc : Nat)
    (rand : Nat → List Nat → List Nat) (arr : List (List Nat)) (bins : List Nat)
    (hs : stratify table nc ipc rand = some (arr, bins)) :
    bins.length = (binsU table).length * ipbOf table ipc ∧
    (¬ (binsU table).length ∣ ipc → bins.length < ipc) ∧
    ∀ row ∈ arr, row.length = ipc ∧
      ∀ j, ∀ hj : j < row.length,
        (binsU table).length * ipbOf table ipc ≤ j → row.get ⟨j, hj⟩ = 0 := by
  refine ⟨stratify_bins_length hs, ?_, ?_⟩
  · intro hndvd
    rw [stratify_bins_length hs]
    rcases Nat.lt_or_ge ((binsU table).length * ipbOf table ipc) ipc with h | h
    · exact h
    · exfalso
      have hle := binsU_mul_ipb_le table ipc
      have heq : (binsU table).length * ipbOf table ipc = ipc := by omega
      exact hndvd (Dvd.intro _ heq)
  · intro row hrow
    exact ⟨stratify_row_length hs row hrow,
      fun j hj hge => stratify_trailing_zero hs row hrow j hj hge⟩

theorem C10_binvector_length_witness :
    ([1, 2] : List Nat).length = (binsU T6).length * ipbOf T6 3 ∧
    (¬ (binsU T6).length ∣ 3 → ([1, 2] : List Nat).length < 3) ∧
    ∀ row ∈ [[1, 4, 0], [2, 5, 0], [3, 6, 0]], row.length = 3 ∧
      ∀ j, ∀ hj : j < row.length,
        (binsU T6).length * ipbOf T6 3 ≤ j → row.get ⟨j, hj⟩ = 0 :=
  C10_binvector_length T6 3 3 idRandB [[1, 4, 0], [2, 5, 0], [3, 6, 0]] [1, 2]
    (by decide)

/-- C8 counterexample: the spec's end-to-end scenario (2 bins of 20
images, `num_cond=5`, `img_per_cond=10`) produces no grid at all: each
bin's images truncate to min(20,10)=10 identifiers, which cannot be
reshaped to 5×5=25, so stratification fails. -/
theorem C8_counterexample : stratify T40 5 10 idRandB = none := by decide

/-- C8 (amended): the stratifier processes bins in ascending order of
bin label — every returned BinVector is sorted — and the corrected
end-to-end scenario uses 5 bins of 10 images each (`T50`, `num_cond=5`,
`img_per_cond=10`): the grid is 5×10 with each column holding images of
the bin recorded for that column by the BinVector (ascending two-column
blocks), the encoding list has 40 entries, and the test list has 30
trials, 10 per trial type. -/
theorem C8_sorted_blocks :
    (∀ (table : List (Nat × Nat)) (nc ipc : Nat) (rand : Nat → List Nat → List Nat)
      (arr : List (List Nat)) (bins : List Nat),
      stratify table nc ipc rand = some (arr, bins) → bins.Sorted (· ≤ ·)) ∧
    stratify T50 5 10 idRandB = some (G50, B50) ∧
    B50 = [1, 1, 2, 2, 3, 3, 4, 4, 5, 5] ∧
    (∀ row ∈ G50, ∀ j, ∀ hj : j < row.length,
      row.get ⟨j, hj⟩ ∈ binImgs T50 (B50.getD j 0)) ∧
    (generate_enc_trials G50 5 idRandE).length = 40 ∧
    generate_test_trials G50 B50 10 noSwap idRandT = some TT50 ∧
    TT50.length = 30 ∧
    (TT50.filter fun tr => tr.trialType == typeAA).length = 10 ∧
    (TT50.filter fun tr => tr.trialType == typeBC).length = 10 ∧
    (TT50.filter fun tr => tr.trialType == typeDX).length = 10 := by
  refine ⟨fun table nc ipc rand arr bins hs => stratify_bins_sorted hs, ?_⟩
  decide

theorem C8_sorted_blocks_witness : B50.Sorted (· ≤ ·) :=
  C8_sorted_blocks.1 T50 5 10 idRandB G50 B50 (by decide)

/-- C9: determinism under a fixed seed — two runs of the seeded pipeline
on the same table with the same `num_cond`, `img_per_cond` and the same
seed produce identical results. -/
theorem C9_determinism (seed : Nat) (table : List (Nat × Nat)) (nc ipc : Nat)
    (r1 r2 : Option (List String × List TestTrial))
    (h1 : r1 = generate_trials_seeded seed table nc ipc)
    (h2 : r2 = generate_trials_seeded seed table nc ipc) : r1 = r2 :=
  h1.trans h2.symm

theorem C9_determinism_witness :
    generate_trials_seeded 7 T50 5 10 = generate_trials_seeded 7 T50 5 10 :=
  C9_determinism 7 T50 5 10 _ _ rfl rfl

/-- C1: the matching invariant.  For any pipeline run that returns
(regardless of the random draws: arbitrary per-bin and per-row oracles,
any row-shuffle that permutes), the multiset of `lure_bin` values over
each trial type's trials is exactly the BinVector returned by the
stratifier, whose length is `img_per_cond` — so all three trial types
have identical difficulty-bin composition. -/
theorem C1_matching_invariant (table : List (Nat × Nat)) (nc ipc : Nat)
    (randB : Nat → List Nat → List Nat) (randE : List Nat → List Nat)
    (swapF : Nat → Bool) (randT : List TestTrial → List TestTrial)
    (arr : List (List Nat)) (bins : List Nat)
    (enc : List String) (test : List TestTrial)
    (hT : validPermT randT)
    (hs : stratify table nc ipc randB = some (arr, bins))
    (hp : generate_trials table nc ipc randB randE swapF randT = some (enc, test)) :
    bins.length = ipc ∧
    ((test.filter fun tr => tr.trialType == typeAA).map TestTrial.lureBin).Perm bins ∧
    ((test.filter fun tr => tr.trialType == typeBC).map TestTrial.lureBin).Perm bins ∧
    ((test.filter fun tr => tr.trialType == typeDX).map TestTrial.lureBin).Perm bins := by
  rcases generate_trials_parts hp with ⟨arr', bins', hs', ht', _⟩
  have heq := Option.some.inj (hs.symm.trans hs')
  have harr : arr' = arr := (congrArg Prod.fst heq).symm
  have hbins : bins' = bins := (congrArg Prod.snd heq).symm
  subst harr
  subst hbins
  exact test_filter_perm hT (stratify_row_length hs) ht'

theorem C1_matching_invariant_witness :
    B50.length = 10 ∧
    ((TT50.filter fun tr => tr.trialType == typeAA).map TestTrial.lureBin).Perm B50 ∧
    ((TT50.filter fun tr => tr.trialType == typeBC).map TestTrial.lureBin).Perm B50 ∧
    ((TT50.filter fun tr => tr.trialType == typeDX).map TestTrial.lureBin).Perm B50 :=
  C1_matching_invariant T50 5 10 idRandB idRandE noSwap idRandT G50 B50
    (generate_enc_trials G50 5 idRandE) TT50
    (fun l => List.Perm.refl l) (by decide) (by decide)

/-- C3: pairing rules of the test trials.  Every trial of a returned
TestTrialList carries one of the three trial types; an A-A' trial pairs
the two formatted variants (`a`/`b` suffix) of one identifier of grid
row 0; a B-C' trial pairs the row-1 identifier (suffix `a`) with the
row-2 identifier (suffix `b`) of the same column; a D-X trial likewise
pairs rows 3 and 4; and in every trial exactly one entry ends in
`a.jpg` and the other in `b.jpg`, in either left/right order. -/
theorem C3_pairing (table : List (Nat × Nat)) (nc ipc : Nat)
    (randB : Nat → List Nat → List Nat) (swapF : Nat → Bool)
    (randT : List TestTrial → List TestTrial)
    (arr : List (List Nat)) (bins : List Nat) (l : List TestTrial)
    (r0 r1 r2 r3 r4 : List Nat) (rest : List (List Nat))
    (hT : validPermT randT)
    (hs : stratify table nc ipc randB = some (arr, bins))
    (harr : arr = r0 :: r1 :: r2 :: r3 :: r4 :: rest)
    (ht : generate_test_trials arr bins ipc swapF randT = some l) :
    ∀ tr ∈ l,
      (tr.trialType = typeAA ∨ tr.trialType = typeBC ∨ tr.trialType = typeDX) ∧
      (tr.trialType = typeAA → pairedSameCol r0 r0 tr) ∧
      (tr.trialType = typeBC → pairedSameCol r1 r2 tr) ∧
      (tr.trialType = typeDX → pairedSameCol r3 r4 tr) ∧
      exactlyOneSuffix tr := by
  subst harr
  have hrows := stratify_row_length hs
  rcases test_blocks hrows ht with ⟨hbins, iB, iC, hl⟩
  intro tr htr
  rw [hl] at htr
  have htr0 := (hT _).mem_iff.mp htr
  rcases List.mem_append.mp htr0 with h12 | hC
  · rcases List.mem_append.mp h12 with hA | hB
    · have hty := trialType_of_mem_replicate hA
      have hpair := (mem_block_paired hA).1
      refine ⟨Or.inl hty, fun _ => hpair, ?_, ?_, exactlyOneSuffix_of_paired hpair⟩
      · intro hbc
        rw [hty] at hbc
        exact absurd hbc (by decide)
      · intro hdx
        rw [hty] at hdx
        exact absurd hdx (by decide)
    · have hty := trialType_of_mem_replicate hB
      have hpair := (mem_block_paired hB).1
      refine ⟨Or.inr (Or.inl hty), ?_, fun _ => hpair, ?_,
        exactlyOneSuffix_of_paired hpair⟩
      · intro haa
        rw [hty] at haa
        exact absurd haa (by decide)
      · intro hdx
        rw [hty] at hdx
        exact absurd hdx (by decide)
  · have hty := trialType_of_mem_replicate hC
    have hpair := (mem_block_paired hC).1
    refine ⟨Or.inr (Or.inr hty), ?_, ?_, fun _ => hpair,
      exactlyOneSuffix_of_paired hpair⟩
    · intro haa
      rw [hty] at haa
      exact absurd haa (by decide)
    · intro hbc
      rw [hty] at hbc
      exact absurd hbc (by decide)

theorem C3_pairing_witness :
    (TestTrial.mk "001a.jpg" "001b.jpg" typeAA 1).trialType = typeAA ∨
      (TestTrial.mk "001a.jpg" "001b.jpg" typeAA 1).trialType = typeBC ∨
      (TestTrial.mk "001a.jpg" "001b.jpg" typeAA 1).trialType = typeDX := by
  have h := C3_pairing T50 5 10 idRandB noSwap idRandT G50 B50 TT50
    [1, 2, 11, 12, 21, 22, 31, 32, 41, 42]
    [3, 4, 13, 14, 23, 24, 33, 34, 43, 44]
    [5, 6, 15, 16, 25, 26, 35, 36, 45, 46]
    [7, 8, 17, 18, 27, 28, 37, 38, 47, 48]
    [9, 10, 19, 20, 29, 30, 39, 40, 49, 50] []
    (fun l => List.Perm.refl l) (by decide) (by decide) (by decide)
  exact (h (TestTrial.mk "001a.jpg" "001b.jpg" typeAA 1) (by decide)).1

/-- C7: shape of the test trials.  For a table whose identifiers are
below 1000, every returned trial's type is one of the three labels, its
`lure_bin` is one of the BinVector's numeric bin labels, and its two
images are `<3-digit-zero-padded-id>` followed by `a.jpg` on one side
and `b.jpg` on the other (in either order). -/
theorem C7_trial_shape (table : List (Nat × Nat)) (nc ipc : Nat)
    (randB : Nat → List Nat → List Nat) (swapF : Nat → Bool)
    (randT : List TestTrial → List TestTrial)
    (arr : List (List Nat)) (bins : List Nat) (l : List TestTrial)
    (hbound : ∀ p ∈ table, p.1 < 1000)
    (hB : validPermB randB) (hT : validPermT randT)
    (hs : stratify table nc ipc randB = some (arr, bins))
    (ht : generate_test_trials arr bins ipc swapF randT = some l) :
    ∀ tr ∈ l,
      (tr.trialType = typeAA ∨ tr.trialType = typeBC ∨ tr.trialType = typeDX) ∧
      tr.lureBin ∈ bins ∧
      ∃ x y : Nat, x < 1000 ∧ y < 1000 ∧
        (zfill 3 (natRepr x)).length = 3 ∧ (zfill 3 (natRepr y)).length = 3 ∧
        ((tr.left = fmtA x ∧ tr.right = fmtB y) ∨
          (tr.left = fmtB y ∧ tr.right = fmtA x)) := by
  rcases test_trials_parts ht with ⟨r0, r1, r2, r3, r4, rest, harr, _, _, _, _, _⟩
  subst harr
  have hrows := stratify_row_length hs
  rcases test_blocks hrows ht with ⟨hbins, iB, iC, hl⟩
  have hentry := stratify_entries hB hs
  have hbnd : ∀ row ∈ (r0 :: r1 :: r2 :: r3 :: r4 :: rest), ∀ v ∈ row, v < 1000 := by
    intro row hrow v hv
    rcases hentry row hrow v hv with ⟨p, hp, rfl⟩ | rfl
    · exact hbound p hp
    · omega
  have hperblock : ∀ (ra rb : List Nat), ra ∈ (r0 :: r1 :: r2 :: r3 :: r4 :: rest) →
      rb ∈ (r0 :: r1 :: r2 :: r3 :: r4 :: rest) → ∀ tr : TestTrial,
      pairedSameCol ra rb tr →
      ∃ x y : Nat, x < 1000 ∧ y < 1000 ∧
        (zfill 3 (natRepr x)).length = 3 ∧ (zfill 3 (natRepr y)).length = 3 ∧
        ((tr.left = fmtA x ∧ tr.right = fmtB y) ∨
          (tr.left = fmtB y ∧ tr.right = fmtA x)) := by
    intro ra rb hra hrb tr hpair
    rcases hpair with ⟨i, hia, hib, hcase⟩
    have hx : ra.get ⟨i, hia⟩ < 1000 := hbnd ra hra _ (List.get_mem _ _ hia)
    have hy : rb.get ⟨i, hib⟩ < 1000 := hbnd rb hrb _ (List.get_mem _ _ hib)
    exact ⟨ra.get ⟨i, hia⟩, rb.get ⟨i, hib⟩, hx, hy,
      zfill_natRepr_length hx, zfill_natRepr_length hy, hcase⟩
  intro tr htr
  rw [hl] at htr
  have htr0 := (hT _).mem_iff.mp htr
  rcases List.mem_append.mp htr0 with h12 | hC
  · rcases List.mem_append.mp h12 with hA | hB'
    · have hty := trialType_of_mem_replicate hA
      rcases mem_block_paired hA with ⟨hpair, hbin⟩
      exact ⟨Or.inl hty, hbin,
        hperblock r0 r0 (by simp) (by simp) tr hpair⟩
    · have hty := trialType_of_mem_replicate hB'
      rcases mem_block_paired hB' with ⟨hpair, hbin⟩
      exact ⟨Or.inr (Or.inl hty), hbin,
        hperblock r1 r2 (by simp) (by simp) tr hpair⟩
  · have hty := trialType_of_mem_replicate hC
    rcases mem_block_paired hC with ⟨hpair, hbin⟩
    exact ⟨Or.inr (Or.inr hty), hbin,
      hperblock r3 r4 (by simp) (by simp) tr hpair⟩

theorem C7_trial_shape_witness :
    (TestTrial.mk "001a.jpg" "001b.jpg" typeAA 1).lureBin ∈ B50 := by
  have h := C7_trial_shape T50 5 10 idRandB noSwap idRandT G50 B50 TT50
    (by decide) (fun b l => List.Perm.refl l) (fun l => List.Perm.refl l)
    (by decide) (by decide)
  exact (h (TestTrial.mk "001a.jpg" "001b.jpg" typeAA 1) (by decide)).2.1

/-- C4 counterexample: with table `T4` — which satisfies the claim's
validity conditions (both bins have `img_per_cond = 2` images, and 2
bins divide 2) but repeats identifier 1 in both bins — the last grid
row `[5, 1]` contains identifier 1, and its formatted filename
`"001a.jpg"` appears in the encoding list, contradicting "no identifier
from the last grid row ever appears in it". -/
theorem C4_counterexample :
    stratify T4 2 2 idRandB = some ([[1, 7], [5, 1]], [1, 2]) ∧
    [[1, 7], [5, 1]].getLast? = some [5, 1] ∧ (1 : Nat) ∈ ([5, 1] : List Nat) ∧
    fmtA 1 ∈ generate_enc_trials [[1, 7], [5, 1]] 2 idRandE ∧
    fmtA 1 = "001a.jpg" := by
  decide

/-- C4 (amended): the encoding list is a permutation of the formatted
(suffix `a.jpg`) identifiers of grid rows 0..num_cond-2 and has length
`(num_cond - 1) * img_per_cond`; and provided the table's identifiers
are pairwise distinct (and the bin count divides `img_per_cond`, part of
the claim's validity condition), no identifier of the last grid row
appears in it — with duplicated identifiers it can (counterexample). -/
theorem C4_encoding_content (table : List (Nat × Nat)) (nc ipc : Nat)
    (randB : Nat → List Nat → List Nat) (randE : List Nat → List Nat)
    (arr : List (List Nat)) (bins : List Nat)
    (hB : validPermB randB) (hE : validPermE randE)
    (hs : stratify table nc ipc randB = some (arr, bins)) :
    (generate_enc_trials arr nc randE).Perm
      (((arr.take (nc - 1)).flatten).map fmtA) ∧
    (generate_enc_trials arr nc randE).length = (nc - 1) * ipc ∧
    ((table.map Prod.fst).Nodup → (binsU table).length ∣ ipc →
      ∀ lrow, arr.getLast? = some lrow → ∀ x ∈ lrow,
        fmtA x ∉ generate_enc_trials arr nc randE) := by
  rcases stratify_parts hs with ⟨blocks, hblocks, harr, _⟩
  have hminnc : min (nc - 1) nc = nc - 1 := by omega
  have htake : arr.take (nc - 1) = (List.range (nc - 1)).map fun r =>
      (blocks.map fun blk => blk.getD r []).flatten ++
        List.replicate (ipc - (binsU table).length * ipbOf table ipc) 0 := by
    rw [harr, ← List.map_take, List.take_range, hminnc]
  have htakelen : ∀ row ∈ arr.take (nc - 1), row.length = ipc := fun row hrow =>
    stratify_row_length hs row (List.take_subset _ _ hrow)
  have hflatlen : ((arr.take (nc - 1)).flatten).length = (nc - 1) * ipc := by
    rw [flatten_const_length _ ipc htakelen, List.length_take, harr]
    simp only [List.length_map, List.length_range]
    rw [hminnc]
  refine ⟨enc_perm hE, ?_, ?_⟩
  · rw [(enc_perm hE).length_eq, List.length_map, hflatlen]
  · intro hids hdvd lrow hlast x hx hmem
    have hfull : (binsU table).length * ipbOf table ipc = ipc :=
      Nat.mul_div_cancel' hdvd
    have hpad : ipc - (binsU table).length * ipbOf table ipc = 0 := by omega
    have hrowmem : ∀ r x', x' ∈ (blocks.map fun blk => blk.getD r []).flatten ++
        List.replicate (ipc - (binsU table).length * ipbOf table ipc) 0 →
        x' ∈ (blocks.map fun blk => blk.getD r []).flatten := by
      intro r x' hx'
      rcases List.mem_append.mp hx' with h | h
      · exact h
      · rw [hpad] at h
        simp at h
    rw [harr] at hlast
    cases nc with
    | zero => simp at hlast
    | succ m =>
      have hm : ((List.range (m + 1)).map fun r =>
          (blocks.map fun blk => blk.getD r []).flatten ++
            List.replicate (ipc - (binsU table).length * ipbOf table ipc) 0).length
          = m + 1 := by
        simp
      rw [List.getLast?_eq_getElem?, hm] at hlast
      have hidx : m + 1 - 1 = m := by omega
      rw [hidx, List.getElem?_map, List.getElem?_range (by omega)] at hlast
      simp only [Option.map_some'] at hlast
      have hlrow : lrow = (blocks.map fun blk => blk.getD m []).flatten ++
          List.replicate (ipc - (binsU table).length * ipbOf table ipc) 0 := by
        exact (Option.some.inj hlast).symm
      have hxlast : x ∈ (blocks.map fun blk => blk.getD m []).flatten :=
        hrowmem m x (hlrow ▸ hx)
      have hmem2 : fmtA x ∈ ((arr.take (m + 1 - 1)).flatten).map fmtA :=
        (enc_perm hE).mem_iff.mp hmem
      rcases List.mem_map.mp hmem2 with ⟨y, hy, hfxy⟩
      have hxy : y = x := fmtA_inj hfxy
      subst hxy
      rw [htake] at hy
      have hidx2 : m + 1 - 1 = m := by omega
      rw [hidx2] at hy
      rcases List.mem_flatten.mp hy with ⟨row', hrow', hyrow'⟩
      rcases List.mem_map.mp hrow' with ⟨r', hr', rfl⟩
      have hr'm : r' < m := List.mem_range.mp hr'
      have hyflat : y ∈ (blocks.map fun blk => blk.getD r' []).flatten :=
        hrowmem r' y hyrow'
      exact rows_disjoint hB hids hblocks (show m < m + 1 by omega)
        (show r' < m + 1 by omega) (by omega) hxlast hyflat

theorem C4_encoding_content_witness :
    (generate_enc_trials [[1, 3], [2, 4]] 2 idRandE).Perm
      ((([[1, 3], [2, 4]].take (2 - 1)).flatten).map fmtA) ∧
    (generate_enc_trials [[1, 3], [2, 4]] 2 idRandE).length = (2 - 1) * 2 ∧
    ((T4d.map Prod.fst).Nodup → (binsU T4d).length ∣ 2 →
      ∀ lrow, [[1, 3], [2, 4]].getLast? = some lrow → ∀ x ∈ lrow,
        fmtA x ∉ generate_enc_trials [[1, 3], [2, 4]] 2 idRandE) :=
  C4_encoding_content T4d 2 2 idRandB idRandE [[1, 3], [2, 4]] [1, 2]
    (fun b l => List.Perm.refl l) (fun l => List.Perm.refl l) (by decide)

end MST
